import Mathlib

/-!
Verification of the mongodb-livedata-server repository: a shallow embedding
of the DDP server core (version negotiation, invalidation crossbar, selector
rewrite, session merge box, synchronous task queue, write fence and polling
observe driver) together with proofs and refutations of the specification
claims.  Definitions come first, translated from the TypeScript sources;
the theorems about them follow.
-/

set_option maxHeartbeats 1000000

namespace Livedata

/-! ## Definitions -/

/-! ### JSON-like values

DDP message attributes, crossbar trigger values and document field values
hold EJSON values.  We model the scalar EJSON values with a simple inductive
type (the merge box, crossbar and connect handlers treat values opaquely,
only through the functions clone and equals of ejson.ts, which on this
domain are the identity and structural equality); composite values appear
only at fixed places of the embedding, where they get their own types. -/

inductive JsVal : Type
  | undef : JsVal
  | null : JsVal
  | bool (b : Bool) : JsVal
  | num (n : Int) : JsVal
  | str (s : String) : JsVal
  deriving DecidableEq, Repr

/-- JavaScript truthiness of a scalar value. -/
def JsVal.truthy : JsVal → Bool
  | .undef => false
  | .null => false
  | .bool b => b
  | .num n => n ≠ 0
  | .str s => s ≠ ""

/-- A JavaScript object with string keys, as an association list in property
creation order (the order Object.entries iterates).  JS objects never hold
two properties with the same key; operations below keep that invariant. -/
abbrev JsObj (α : Type) := List (String × α)

/-- Property read: obj[k], as an Option. -/
def objGet {α : Type} (o : JsObj α) (k : String) : Option α :=
  match o with
  | [] => none
  | (k2, v) :: rest => if k2 = k then some v else objGet rest k

/-- obj.hasOwnProperty(k). -/
def hasOwnProperty {α : Type} (o : JsObj α) (k : String) : Bool :=
  (objGet o k).isSome

/-- Property write obj[k] = v: overwrite in place, or append a new property. -/
def objSet {α : Type} (o : JsObj α) (k : String) (v : α) : JsObj α :=
  match o with
  | [] => [(k, v)]
  | (k2, v2) :: rest => if k2 = k then (k, v) :: rest else (k2, v2) :: objSet rest k v

/-- Property removal: delete obj[k]. -/
def objDelete {α : Type} (o : JsObj α) (k : String) : JsObj α :=
  match o with
  | [] => []
  | (k2, v2) :: rest => if k2 = k then rest else (k2, v2) :: objDelete rest k

/-- A JavaScript map keyed by numbers (used for listener ids). -/
abbrev JsNatObj (α : Type) := List (Nat × α)

def natObjGet {α : Type} (o : JsNatObj α) (k : Nat) : Option α :=
  match o with
  | [] => none
  | (k2, v) :: rest => if k2 = k then some v else natObjGet rest k

def natObjSet {α : Type} (o : JsNatObj α) (k : Nat) (v : α) : JsNatObj α :=
  match o with
  | [] => [(k, v)]
  | (k2, v2) :: rest => if k2 = k then (k, v) :: rest else (k2, v2) :: natObjSet rest k v

def natObjDelete {α : Type} (o : JsNatObj α) (k : Nat) : JsNatObj α :=
  match o with
  | [] => []
  | (k2, v2) :: rest => if k2 = k then rest else (k2, v2) :: natObjDelete rest k

/-! ### DDP version negotiation (utils.ts and livedata_server.ts) -/

def SUPPORTED_DDP_VERSIONS : List String := ["1a", "1", "pre2", "pre1"]

/-- clientSupportedVersions.find(version => serverSupportedVersions.includes(version)),
falling back to the first server version when there is no common one. -/
def calculateVersion (clientSupportedVersions serverSupportedVersions : List String) : String :=
  match clientSupportedVersions.find? (fun version => serverSupportedVersions.contains version) with
  | some correctVersion => correctVersion
  | none => serverSupportedVersions.headD ""

/-- A connect message attribute: either a scalar or an array of scalars
(enough to express every shape the connect validation distinguishes). -/
inductive ConnectArg : Type
  | scalar (v : JsVal) : ConnectArg
  | array (xs : List JsVal) : ConnectArg
  deriving DecidableEq, Repr

/-- The version and support fields of a connect message, before validation. -/
structure ConnectMsg where
  version : ConnectArg
  support : ConnectArg
  deriving DecidableEq, Repr

/-- Outcome of handleConnect: either a failed message (followed by a socket
close and no session) or a created session with the negotiated version. -/
inductive ConnectOutcome : Type
  | failed (version : String) : ConnectOutcome
  | connected (version : String) : ConnectOutcome
  deriving DecidableEq, Repr

/-- Array.isArray(support) and support.every(s => typeof s === "string"). -/
def asStringArray : ConnectArg → Option (List String)
  | .array xs => xs.mapM (fun x => match x with | .str s => some s | _ => none)
  | _ => none

/-- DDPServer handleConnect: the connect message must have a string version,
an array of string support versions, and the support list must contain the
proposed version; otherwise the server sends failed with its most preferred
version and closes.  Then the negotiated version is calculated and, if it
differs from the proposed one, the server sends failed with it and closes;
otherwise a session is created. -/
def handleConnect (msg : ConnectMsg) : ConnectOutcome :=
  match msg.version, asStringArray msg.support with
  | .scalar (.str v), some support =>
    if support.contains v then
      let version := calculateVersion support SUPPORTED_DDP_VERSIONS
      if v ≠ version then
        .failed version
      else
        .connected version
    else
      .failed (SUPPORTED_DDP_VERSIONS.headD "")
  | _, _ => .failed (SUPPORTED_DDP_VERSIONS.headD "")

/-- The connect message of the claimed example. -/
def exampleConnectMsg : ConnectMsg :=
  { version := .scalar (.str "1"), support := .array [.str "1", .str "1a"] }

/-! ### Selector rewrite (live_cursor.ts) -/

/-- A Mongo selector as received by the cursor constructor: undefined, null,
an array, or an object of scalar field constraints. -/
inductive Selector : Type
  | undef : Selector
  | null : Selector
  | array : Selector
  | obj (fields : JsObj JsVal) : Selector
  deriving DecidableEq, Repr

/-- JavaScript truthiness of a selector value (an object, even empty, is
truthy; undefined and null are falsy). -/
def Selector.truthy : Selector → Bool
  | .undef => false
  | .null => false
  | .array => true
  | .obj _ => true

/-- The test ('_id' in selector), true when the property exists at all. -/
def Selector.hasIdProp : Selector → Bool
  | .obj fields => hasOwnProperty fields "_id"
  | _ => false

/-- The value selector._id (undefined when absent or not an object). -/
def Selector.idProp : Selector → JsVal
  | .obj fields => (objGet fields "_id").getD .undef
  | _ => JsVal.undef

/-- rewriteSelector of live_cursor.ts: an array selector throws; a falsy
selector, or one with a falsy _id property, is replaced by an unmatchable
selector carrying a fresh random id; anything else is returned unchanged.
The fresh id produced by Random.id() is passed in as freshId. -/
def rewriteSelector (selector : Selector) (freshId : String) : Except String Selector :=
  if selector = .array then
    .error "Mongo selector cannot be an array."
  else if !selector.truthy || (selector.hasIdProp && !selector.idProp.truthy) then
    .ok (.obj [("_id", .str freshId)])
  else
    .ok selector

/-- The CursorDescription constructor stores the collection name and the
rewritten selector (construction throws exactly when the rewrite throws). -/
structure CursorDescription where
  collectionName : String
  selector : Selector
  deriving DecidableEq, Repr

def mkCursorDescription (collectionName : String) (selector : Selector)
    (freshId : String) : Except String CursorDescription :=
  (rewriteSelector selector freshId).map (fun s => ⟨collectionName, s⟩)

/-- A stored document: its field assignment (including the _id field). -/
abbrev StoreDoc := JsObj JsVal

/-- Modelled from the spec: the selector matcher is an external collaborator
(the minimongo matcher, a black-box predicate per spec section 6); on the
plain equality selectors exercised by the selector-rewrite claim it matches
a document iff every field named by the selector exists in the document
with an equal value. -/
def selectorMatches (fields : JsObj JsVal) (doc : StoreDoc) : Bool :=
  fields.all (fun kv => objGet doc kv.1 == some kv.2)

/-! ### Invalidation crossbar (crossbar.ts) -/

/-- collectionForMessage: messages without a collection property go into the
bucket of the empty string; a non-string or empty-string collection throws. -/
def collectionForMessage (msg : JsObj JsVal) : Except String String :=
  if !(hasOwnProperty msg "collection") then
    .ok ""
  else
    match objGet msg "collection" with
    | some (.str c) =>
      if c = "" then .error "Message has empty collection" else .ok c
    | _ => .error "Message has non-string collection"

/-- The fast-path check of Crossbar matching: both the notification and the
trigger carry a string id property and the two differ. -/
def idFastPathDiffers (n t : JsObj JsVal) : Bool :=
  match objGet n "id", objGet t "id" with
  | some (.str a), some (.str b) => a ≠ b
  | _, _ => false

/-- Crossbar matching: after the fast path, every trigger entry must either
be absent from the notification or equal to the notification value. -/
def crossbarMatches (n t : JsObj JsVal) : Bool :=
  if idFastPathDiffers n t then
    false
  else
    t.all (fun kv =>
      match objGet n kv.1 with
      | none => true
      | some nv => kv.2 == nv)

/-- A JavaScript number that may be NaN (what decrementing a missing counter
produces). -/
inductive JsNum : Type
  | int (n : Int) : JsNum
  | nan : JsNum
  deriving DecidableEq, Repr

def JsNum.inc : JsNum → JsNum
  | .int n => .int (n + 1)
  | .nan => .nan

def JsNum.dec : JsNum → JsNum
  | .int n => .int (n - 1)
  | .nan => .nan

/-- The strict comparison count === 0 (false for NaN). -/
def JsNum.isZero : JsNum → Bool
  | .int n => n == 0
  | .nan => false

/-- The listener registry of the crossbar.  A listener record is reduced to
its trigger; the callback is identified by the listener id. -/
structure CrossbarState where
  listenersByCollection : JsObj (JsNatObj (JsObj JsVal))
  listenersByCollectionCount : JsObj JsNum
  nextId : Nat
  deriving DecidableEq, Repr

def emptyCrossbar : CrossbarState :=
  { listenersByCollection := [], listenersByCollectionCount := [], nextId := 1 }

/-- Crossbar listen: allocate an id, create the collection bucket and its
counter if absent, store the record and increment the counter.  Returns the
new state together with the data captured by the stop closure (the bucket
collection and the listener id). -/
def crossbarListen (st : CrossbarState) (trigger : JsObj JsVal) :
    Except String (CrossbarState × String × Nat) := do
  let id := st.nextId
  let collection ← collectionForMessage trigger
  let lbc :=
    if hasOwnProperty st.listenersByCollection collection then st.listenersByCollection
    else objSet st.listenersByCollection collection []
  let cnt :=
    if hasOwnProperty st.listenersByCollection collection then st.listenersByCollectionCount
    else objSet st.listenersByCollectionCount collection (.int 0)
  let bucket := (objGet lbc collection).getD []
  let lbc := objSet lbc collection (natObjSet bucket id trigger)
  let cnt := objSet cnt collection (((objGet cnt collection).getD .nan).inc)
  return ({ listenersByCollection := lbc, listenersByCollectionCount := cnt, nextId := id + 1 },
          collection, id)

/-- The stop closure of a listen handle: delete the record from the bucket
(a TypeError if the bucket object itself is gone), decrement the counter
(NaN if the counter is gone), and when the counter is strictly equal to zero
delete the bucket and the counter. -/
def crossbarStop (st : CrossbarState) (collection : String) (id : Nat) :
    Except String CrossbarState :=
  match objGet st.listenersByCollection collection with
  | none => .error "TypeError: cannot delete a property of undefined"
  | some bucket =>
    let lbc := objSet st.listenersByCollection collection (natObjDelete bucket id)
    let newCount := ((objGet st.listenersByCollectionCount collection).getD .nan).dec
    let cnt := objSet st.listenersByCollectionCount collection newCount
    if newCount.isZero then
      .ok { st with
              listenersByCollection := objDelete lbc collection,
              listenersByCollectionCount := objDelete cnt collection }
    else
      .ok { st with listenersByCollection := lbc, listenersByCollectionCount := cnt }

/-- Crossbar fire: snapshot the ids of the matching listeners of the
notification bucket, then invoke each callback.  Returns the ids invoked,
in bucket order (no listener stops during our fires, so the snapshot is
exactly the invocation list). -/
def crossbarFire (st : CrossbarState) (notif : JsObj JsVal) : Except String (List Nat) :=
  match collectionForMessage notif with
  | .error e => .error e
  | .ok collection =>
    match objGet st.listenersByCollection collection with
    | none => .ok []
    | some bucket =>
      .ok ((bucket.filter (fun l => crossbarMatches notif l.2)).map (fun l => l.1))

/-- The trigger and notification used in the crossbar scenarios: a plain
collection-C trigger without an id constraint. -/
def trigC : JsObj JsVal := [("collection", .str "C")]

/-- The id-targeted trigger of the crossbar matching scenario. -/
def trigCX : JsObj JsVal := [("collection", .str "C"), ("id", .str "X")]

/-- The registry after three listens on collection C from the fresh crossbar
(listener ids 1, 2 and 3, count 3). -/
def c9Registry : CrossbarState :=
  { listenersByCollection := [("C", [(1, trigC), (2, trigC), (3, trigC)])],
    listenersByCollectionCount := [("C", .int 3)],
    nextId := 4 }

/-- c9Registry after stopping listener 1 once. -/
def c9AfterOneStop : CrossbarState :=
  { listenersByCollection := [("C", [(2, trigC), (3, trigC)])],
    listenersByCollectionCount := [("C", .int 2)],
    nextId := 4 }

/-- c9AfterOneStop after stopping listener 1 a second time: the bucket is
unchanged but the count drops to 1. -/
def c9AfterDoubleStop : CrossbarState :=
  { listenersByCollection := [("C", [(2, trigC), (3, trigC)])],
    listenersByCollectionCount := [("C", .int 1)],
    nextId := 4 }

/-- c9AfterDoubleStop after the legitimate stop of listener 2: the corrupted
count reaches zero, so the whole bucket is deleted although listener 3 was
never stopped. -/
def c9Corrupted : CrossbarState :=
  { listenersByCollection := [],
    listenersByCollectionCount := [],
    nextId := 4 }

/-- c9AfterOneStop after the legitimate stop of listener 2 (no repeated stop
in between): listener 3 remains registered. -/
def c9Healthy : CrossbarState :=
  { listenersByCollection := [("C", [(3, trigC)])],
    listenersByCollectionCount := [("C", .int 1)],
    nextId := 4 }

/-! ### Session document view and collection view, the merge box
(session-document-view.ts and session-collection-view.ts) -/

/-- One entry of a field precedence list: the contributing subscription
handle and its contributed value. -/
structure PrecedenceItem where
  subscriptionHandle : String
  value : JsVal
  deriving DecidableEq, Repr

/-- A SessionDocumentView: the set of subscription handles reporting the
document (a JS Set, in insertion order) and, per field, the precedence list
of contributions. -/
structure SessionDocumentView where
  existsIn : List String
  dataByKey : JsObj (List PrecedenceItem)
  deriving DecidableEq, Repr

def emptyDocView : SessionDocumentView := ⟨[], []⟩

/-- The placeholder returned by head access of an empty precedence list (the
code never reads it: lists stored in dataByKey are nonempty). -/
def noItem : PrecedenceItem := ⟨"", .undef⟩

/-- getFields: every field maps to the value of the head of its precedence
list. -/
def getFields (dv : SessionDocumentView) : JsObj JsVal :=
  dv.dataByKey.map (fun kv => (kv.1, (kv.2.headD noItem).value))

/-- JS Set.add: append the element when absent. -/
def setAdd (s : List String) (x : String) : List String :=
  if x ∈ s then s else s ++ [x]

/-- JS Set.delete: remove the element. -/
def setDelete (s : List String) (x : String) : List String :=
  s.filter (fun e => e ≠ x)

/-- The splice of the clearField loop: remove the first precedence entry of
the handle; none when the handle contributes nothing to the field. -/
def spliceHandle (h : String) : List PrecedenceItem → Option (List PrecedenceItem)
  | [] => none
  | p :: rest =>
    if p.subscriptionHandle = h then some rest
    else (spliceHandle h rest).map (fun l => p :: l)

/-- The in-place elt.value = value of changeField: overwrite the value of
the first precedence entry of the handle; none when the handle contributes
nothing to the field (the find returned undefined). -/
def updateHandleValue (h : String) (v : JsVal) : List PrecedenceItem → Option (List PrecedenceItem)
  | [] => none
  | p :: rest =>
    if p.subscriptionHandle = h then some (⟨h, v⟩ :: rest)
    else (updateHandleValue h v rest).map (fun l => p :: l)

/-- clearField of session-document-view.ts.  The _id key is ignored; clearing
a field the handle does not contribute to is a no-op; removing the last
entry deletes the field and records undefined in the collector; removing the
head entry records the new head value when it differs (removedValue is the
JS local: the removed head value, or undefined when a non-head entry was
removed). -/
def clearField (subscriptionHandle key : String) (dv : SessionDocumentView)
    (changeCollector : JsObj JsVal) : SessionDocumentView × JsObj JsVal :=
  if key = "_id" then (dv, changeCollector)
  else
    match objGet dv.dataByKey key with
    | none => (dv, changeCollector)
    | some precedenceList =>
      let removedValue : JsVal :=
        match precedenceList with
        | p :: _ => if p.subscriptionHandle = subscriptionHandle then p.value else .undef
        | [] => .undef
      match spliceHandle subscriptionHandle precedenceList with
      | none => (dv, changeCollector)
      | some newList =>
        if newList = [] then
          (⟨dv.existsIn, objDelete dv.dataByKey key⟩, objSet changeCollector key .undef)
        else if removedValue ≠ .undef ∧ removedValue ≠ (newList.headD noItem).value then
          (⟨dv.existsIn, objSet dv.dataByKey key newList⟩,
           objSet changeCollector key (newList.headD noItem).value)
        else
          (⟨dv.existsIn, objSet dv.dataByKey key newList⟩, changeCollector)

/-- changeField of session-document-view.ts.  The _id key is ignored; a new
field gets a singleton precedence list and is recorded in the collector; an
isAdd call, or a call by a handle not yet caring about the field, appends to
the precedence list without any visible change; a call by the handle holding
the head entry overwrites it and records the value when it changed. -/
def changeField (subscriptionHandle key : String) (value : JsVal)
    (dv : SessionDocumentView) (changeCollector : JsObj JsVal) (isAdd : Bool) :
    SessionDocumentView × JsObj JsVal :=
  if key = "_id" then (dv, changeCollector)
  else
    match objGet dv.dataByKey key with
    | none =>
      (⟨dv.existsIn, objSet dv.dataByKey key [⟨subscriptionHandle, value⟩]⟩,
       objSet changeCollector key value)
    | some precedenceList =>
      if isAdd then
        (⟨dv.existsIn,
          objSet dv.dataByKey key (precedenceList ++ [⟨subscriptionHandle, value⟩])⟩,
         changeCollector)
      else
        match updateHandleValue subscriptionHandle value precedenceList with
        | none =>
          (⟨dv.existsIn,
            objSet dv.dataByKey key (precedenceList ++ [⟨subscriptionHandle, value⟩])⟩,
           changeCollector)
        | some newList =>
          let isHeadChange : Bool :=
            match precedenceList with
            | p :: _ => p.subscriptionHandle == subscriptionHandle && value != p.value
            | [] => false
          (⟨dv.existsIn, objSet dv.dataByKey key newList⟩,
           if isHeadChange then objSet changeCollector key value else changeCollector)

/-- The callbacks a SessionCollectionView invokes on its session. -/
inductive ViewCallback : Type
  | added (id : String) (fields : JsObj JsVal) : ViewCallback
  | changed (id : String) (fields : JsObj JsVal) : ViewCallback
  | removed (id : String) : ViewCallback
  deriving DecidableEq, Repr

/-- A SessionCollectionView: the id map of document views (the collection
name and callbacks live at the session layer below). -/
structure SessionCollectionView where
  documents : JsObj SessionDocumentView
  deriving DecidableEq, Repr

def emptyCollectionView : SessionCollectionView := ⟨[]⟩

/-- SessionCollectionView.added: create the document view when absent, add
the handle to existsIn, run changeField over every field with isAdd, and
invoke added (new document) or changed (existing document) with the
collected changes. -/
def viewAdded (view : SessionCollectionView) (subscriptionHandle id : String)
    (fields : JsObj JsVal) : SessionCollectionView × ViewCallback :=
  let found := objGet view.documents id
  let added := found.isNone
  let docView := found.getD emptyDocView
  let docView := ⟨setAdd docView.existsIn subscriptionHandle, docView.dataByKey⟩
  let start : SessionDocumentView × JsObj JsVal := (docView, [])
  let step := fun (acc : SessionDocumentView × JsObj JsVal) (kv : String × JsVal) =>
    changeField subscriptionHandle kv.1 kv.2 acc.1 acc.2 true
  let res := fields.foldl step start
  (⟨objSet view.documents id res.1⟩,
   if added then .added id res.2 else .changed id res.2)

/-- SessionCollectionView.changed: a missing document throws; an undefined
value clears the field, any other value changes it; the collected result is
reported through the changed callback. -/
def viewChanged (view : SessionCollectionView) (subscriptionHandle id : String)
    (changed : JsObj JsVal) : Except String (SessionCollectionView × ViewCallback) :=
  match objGet view.documents id with
  | none => .error "Could not find element with the given id to change"
  | some docView =>
    let start : SessionDocumentView × JsObj JsVal := (docView, [])
    let step := fun (acc : SessionDocumentView × JsObj JsVal) (kv : String × JsVal) =>
      if kv.2 = .undef then clearField subscriptionHandle kv.1 acc.1 acc.2
      else changeField subscriptionHandle kv.1 kv.2 acc.1 acc.2 false
    let res := changed.foldl step start
    .ok (⟨objSet view.documents id res.1⟩, .changed id res.2)

/-- SessionCollectionView.removed: a missing document throws; the handle
leaves existsIn; when the set empties, the removed callback fires and the
entry is dropped; otherwise the handle is cleared from every precedence list
and the collected changes are reported through the changed callback. -/
def viewRemoved (view : SessionCollectionView) (subscriptionHandle id : String) :
    Except String (SessionCollectionView × ViewCallback) :=
  match objGet view.documents id with
  | none => .error "Removed nonexistent document"
  | some docView =>
    let newExists := setDelete docView.existsIn subscriptionHandle
    if newExists = [] then
      .ok (⟨objDelete view.documents id⟩, .removed id)
    else
      let start : SessionDocumentView × JsObj JsVal :=
        (⟨newExists, docView.dataByKey⟩, [])
      let step := fun (acc : SessionDocumentView × JsObj JsVal)
          (kv : String × List PrecedenceItem) =>
        clearField subscriptionHandle kv.1 acc.1 acc.2
      let res := docView.dataByKey.foldl step start
      .ok (⟨objSet view.documents id res.1⟩, .changed id res.2)

/-! ### Session send layer (session.ts) -/

/-- A DDP data message sent to the client socket. -/
inductive Msg : Type
  | added (collection id : String) (fields : JsObj JsVal) : Msg
  | changed (collection id : String) (fields : JsObj JsVal) : Msg
  | removed (collection id : String) : Msg
  deriving DecidableEq, Repr

/-- DDPSession.sendChanged returns without sending when the fields object is
empty; sendAdded and sendRemoved always send (sessions here are sending,
with the default SERVER_MERGE strategy, so the canSend guard passes). -/
def callbackToMsgs (collectionName : String) : ViewCallback → List Msg
  | .added id fields => [.added collectionName id fields]
  | .changed id fields => if fields = [] then [] else [.changed collectionName id fields]
  | .removed id => [.removed collectionName id]

/-- An operation the subscription layer performs on the merge box. -/
inductive MergeOp : Type
  | added (subscriptionHandle id : String) (fields : JsObj JsVal) : MergeOp
  | changed (subscriptionHandle id : String) (fields : JsObj JsVal) : MergeOp
  | removed (subscriptionHandle id : String) : MergeOp
  deriving DecidableEq, Repr

def applyMergeOp (view : SessionCollectionView) :
    MergeOp → Except String (SessionCollectionView × ViewCallback)
  | .added h id fields => .ok (viewAdded view h id fields)
  | .changed h id fields => viewChanged view h id fields
  | .removed h id => viewRemoved view h id

/-- Run a sequence of merge-box operations from a view, collecting the data
messages the session sends for the collection. -/
def runMergeOps (collectionName : String) (view : SessionCollectionView)
    (msgs : List Msg) : List MergeOp → Except String (SessionCollectionView × List Msg)
  | [] => .ok (view, msgs)
  | op :: ops => do
    let (view2, cb) ← applyMergeOp view op
    runMergeOps collectionName view2 (msgs ++ callbackToMsgs collectionName cb) ops

/-! ### The client state derived from the messages

Modelled from the spec: the DDP client applies added by storing the fields
object as the document, changed by setting each field (removing it when the
value is the cleared representation, undefined) and removed by deleting the
document.  This is the client-visible state the merge-box claims speak
about. -/

def applyChangedFields (doc : JsObj JsVal) (fields : JsObj JsVal) : JsObj JsVal :=
  fields.foldl (fun d kv => if kv.2 = .undef then objDelete d kv.1 else objSet d kv.1 kv.2) doc

def applyMsgClient (docs : JsObj (JsObj JsVal)) : Msg → JsObj (JsObj JsVal)
  | .added _ id fields => objSet docs id fields
  | .changed _ id fields =>
    match objGet docs id with
    | none => docs
    | some doc => objSet docs id (applyChangedFields doc fields)
  | .removed _ id => objDelete docs id

def clientDocs (msgs : List Msg) : JsObj (JsObj JsVal) :=
  msgs.foldl applyMsgClient []

/-! ### Validity of merge-box operation sequences

The observe driver and subscription layer guarantee: added is only delivered
for a document the subscription does not yet report (and with a JS fields
object, whose keys are distinct and whose values are Mongo values, never
undefined); changed and removed only for a document it reports. -/

def opValid (view : SessionCollectionView) : MergeOp → Prop
  | .added h id fields =>
    (∀ dv, objGet view.documents id = some dv → h ∉ dv.existsIn) ∧
    (fields.map Prod.fst).Nodup ∧ (∀ kv ∈ fields, kv.2 ≠ JsVal.undef)
  | .changed h id fields =>
    (∃ dv, objGet view.documents id = some dv ∧ h ∈ dv.existsIn) ∧
    (fields.map Prod.fst).Nodup
  | .removed h id =>
    ∃ dv, objGet view.documents id = some dv ∧ h ∈ dv.existsIn

def ValidFrom (view : SessionCollectionView) : List MergeOp → Prop
  | [] => True
  | op :: ops =>
    opValid view op ∧
    ∀ view2 cb, applyMergeOp view op = .ok (view2, cb) → ValidFrom view2 ops

/-- The client-visible value of a field of a document view: the head value
of its precedence list. -/
def fieldVisible (dv : SessionDocumentView) (k : String) : Option JsVal :=
  (objGet dv.dataByKey k).map (fun pl => (pl.headD noItem).value)

/-! ### Well-formedness and simulation predicates for the merge box -/

/-- Well-formedness of a field precedence map with respect to a handle set:
keys are distinct and never _id; every precedence list is nonempty with
distinct handles drawn from the set, and stores no undefined values. -/
def dataWF (S : List String) (data : JsObj (List PrecedenceItem)) : Prop :=
  (data.map Prod.fst).Nodup ∧ "_id" ∉ data.map Prod.fst ∧
  ∀ k pl, objGet data k = some pl →
    pl ≠ [] ∧ (pl.map PrecedenceItem.subscriptionHandle).Nodup ∧
    (∀ p ∈ pl, p.subscriptionHandle ∈ S) ∧ (∀ p ∈ pl, p.value ≠ JsVal.undef)

/-- Well-formedness of a document view: a nonempty duplicate-free handle set
and a well-formed field map over it. -/
def docWF (dv : SessionDocumentView) : Prop :=
  dv.existsIn ≠ [] ∧ dv.existsIn.Nodup ∧ dataWF dv.existsIn dv.dataByKey

/-- Well-formedness of a collection view. -/
def viewWF (view : SessionCollectionView) : Prop :=
  (view.documents.map Prod.fst).Nodup ∧
  ∀ id dv, objGet view.documents id = some dv → docWF dv

/-- The change-collector invariant maintained along a field fold: collector
keys are distinct; a key absent from the collector has an unchanged visible
value, a key collected as undefined has been cleared, and a key collected
with a value is visible with exactly that value. -/
def ccInv (dv0 dv : SessionDocumentView) (cc : JsObj JsVal) : Prop :=
  (cc.map Prod.fst).Nodup ∧
  ∀ k, (objGet cc k = none → fieldVisible dv k = fieldVisible dv0 k) ∧
       (objGet cc k = some JsVal.undef → fieldVisible dv k = none) ∧
       (∀ v, v ≠ JsVal.undef → objGet cc k = some v → fieldVisible dv k = some v)

/-- Simulation between the client state (derived from the sent messages) and
the server merge box: the same documents exist on both sides, and every
client field value equals the head of the server precedence list. -/
def clientSim (client : JsObj (JsObj JsVal)) (view : SessionCollectionView) : Prop :=
  (client.map Prod.fst).Nodup ∧
  (∀ id, (objGet client id).isSome ↔ (objGet view.documents id).isSome) ∧
  ∀ id dv, objGet view.documents id = some dv →
    ∃ cdoc, objGet client id = some cdoc ∧ (cdoc.map Prod.fst).Nodup ∧
      ∀ k, objGet cdoc k = fieldVisible dv k

/-- The merge-box precedence scenario of the spec: subscription A adds the
document x with field f valued 1, then B adds it valued 2, then A drops it,
then B drops it. -/
def precedenceScenario : List MergeOp :=
  [.added "A" "x" [("f", .num 1)],
   .added "B" "x" [("f", .num 2)],
   .removed "A" "x",
   .removed "B" "x"]

/-- The overlapping-subscription scenario of C8: A adds x with q 5 and r 6,
then B (whose projection excludes q) adds x with r 6 only. -/
def overlapScenario : List MergeOp :=
  [.added "A" "x" [("q", .num 5), ("r", .num 6)],
   .added "B" "x" [("r", .num 6)]]


/-! ### The synchronous task queue (_SynchronousQueue of part_010)

States and events of the queue together with the Node event loop: enqueue
is a runTask or queueTask call (push the handle, _scheduleRun); runStart is
the scheduled setImmediate firing _run (reset the flag and return on an
empty queue, otherwise shift the first handle and start its task);
taskReturn/taskThrow is the running task settling, after which _run clears
the flag, reschedules, and for a runTask handle calls runTaskResolve() with
NO argument (resolving undefined) or runTaskReject(exception).  The log
records the observable task starts, completions and promise settlements. -/

inductive QLog : Type where
  | started (i : Nat)
  | finished (i : Nat) (threw : Option JsVal) (isRunTask : Bool)
  | resolved (i : Nat) (v : JsVal)
  | rejected (i : Nat) (e : JsVal)
  deriving DecidableEq, Repr

structure QState where
  pending : List (Nat × Bool)
  running : Option (Nat × Bool)
  runScheduled : Bool
  nEnqueued : Nat
  started : Nat
  log : List QLog
  deriving DecidableEq, Repr

def qInit : QState := ⟨[], none, false, 0, 0, []⟩

/-- _runningOrRunScheduled: a _run macrotask is pending or a task is being
run. -/
def qflag (s : QState) : Bool := s.runScheduled || s.running.isSome

inductive QEvent : Type where
  | enqueue (isRunTask : Bool)
  | runStart
  | taskReturn (v : JsVal)
  | taskThrow (e : JsVal)
  deriving DecidableEq, Repr

def qstep (s : QState) : QEvent → Option QState
  | .enqueue b =>
    some { s with
      pending := s.pending ++ [(s.nEnqueued, b)]
      nEnqueued := s.nEnqueued + 1
      runScheduled := if qflag s then s.runScheduled else true }
  | .runStart =>
    if s.runScheduled = true then
      match s.pending with
      | [] => some { s with runScheduled := false }
      | (i, b) :: rest =>
        some { s with
          pending := rest
          running := some (i, b)
          runScheduled := false
          started := s.started + 1
          log := s.log ++ [QLog.started i] }
    else none
  | .taskReturn _ =>
    match s.running with
    | some (i, b) =>
      some { s with
        running := none
        runScheduled := true
        log := s.log ++ [QLog.finished i none b] ++
          (if b then [QLog.resolved i JsVal.undef] else []) }
    | none => none
  | .taskThrow e =>
    match s.running with
    | some (i, b) =>
      some { s with
        running := none
        runScheduled := true
        log := s.log ++ [QLog.finished i (some e) b] ++
          (if b then [QLog.rejected i e] else []) }
    | none => none

def runQEvents (s : QState) : List QEvent → Option QState
  | [] => some s
  | e :: evs => (qstep s e).bind (fun s2 => runQEvents s2 evs)

/-- The log validator: tasks run one at a time (a start needs no running
task), start in enqueue order (task ids are assigned 0,1,2,... on arrival
and must start in that order), and every settlement follows its own task's
completion, a normal completion of a runTask task resolving with undefined
and a throwing one rejecting with the thrown exception.
The settlement entry for a finished runTask task (settleLog): resolve
with undefined on normal completion, reject with the exception on throw. -/
def settleLog (i : Nat) : Option JsVal → QLog
  | none => QLog.resolved i JsVal.undef
  | some e => QLog.rejected i e

def qchk : List QLog → Option Nat → Nat → Option QLog →
    Option (Option Nat × Nat × Option QLog)
  | [], cur, next, exp => some (cur, next, exp)
  | e :: rest, cur, next, exp =>
    match exp with
    | some x => if e = x then qchk rest cur next none else none
    | none =>
      match e with
      | .started i =>
        if cur = none ∧ i = next then qchk rest (some i) (next + 1) none else none
      | .finished i out b =>
        if cur = some i then
          qchk rest none next (if b then some (settleLog i out) else none)
        else none
      | .resolved _ _ => none
      | .rejected _ _ => none

def startedIds (l : List QLog) : List Nat :=
  l.filterMap (fun e => match e with | QLog.started i => some i | _ => none)

/-- The queue invariant: no _run is pending while a task runs; the pending
handles are exactly the not-yet-started task ids in arrival order; and the
log validates. -/
def qInv (s : QState) : Prop :=
  (s.running = none ∨ s.runScheduled = false) ∧
  s.pending.map Prod.fst = List.range' s.started s.pending.length ∧
  s.nEnqueued = s.started + s.pending.length ∧
  qchk s.log none 0 none = some (s.running.map Prod.fst, s.started, none)


/-! ### The write fence, method handler and polling observe driver

The method handler of session.ts: a fresh _WriteFence is created with an
onAllCommitted callback that retires the fence and THEN sends updated; on
handler fulfillment finish() arms the fence (firing immediately when no
writes are outstanding) and THEN the result message is sent.  _maybeFire
fires when armed with no outstanding writes.  The polling observe driver
(_pollMongo of part_003) captures the writes pending at the start of a
cycle, delivers the resulting added/changed/removed deltas through the
multiplexer, and only afterwards (in the multiplexer onFlush callback)
calls committed() on each captured write.

Modelled from the spec: the mongo store layer that registers each method
write on the current fence via beginWrite() and notifies the invalidation
crossbar (which schedules the driver poll) has no caller inside src/; the
methodWrite event below models it as the spec describes: one outstanding
write on the fence plus one pending notification for the driver. -/

inductive FLog : Type where
  | armedEv
  | retiredEv
  | resultEv
  | updatedEv
  | deltaEv (i : Nat)
  deriving DecidableEq, Repr

structure FState where
  armed : Bool
  fired : Bool
  retired : Bool
  outstanding : Nat
  handlerDone : Bool
  updatedSent : Bool
  pending : List Nat
  nWrites : Nat
  log : List FLog
  deriving DecidableEq, Repr

def fInit : FState := ⟨false, false, false, 0, false, false, [], 0, []⟩

/-- The onAllCommitted callback of the method handler: retire the fence,
then send updated. -/
def fireChunk : List FLog := [FLog.retiredEv, FLog.updatedEv]

inductive FEvent : Type where
  | methodWrite
  | fulfil
  | pollCycle
  deriving DecidableEq, Repr

def fstep (s : FState) : FEvent → Option FState
  | .methodWrite =>
    if s.handlerDone = false ∧ s.retired = false ∧ s.fired = false then
      some { s with
        outstanding := s.outstanding + 1
        pending := s.pending ++ [s.nWrites]
        nWrites := s.nWrites + 1 }
    else none
  | .fulfil =>
    if s.handlerDone = false then
      let doFire := (s.outstanding == 0) && !s.fired
      some { s with
        handlerDone := true
        armed := true
        fired := s.fired || doFire
        retired := s.retired || doFire
        updatedSent := s.updatedSent || doFire
        log := s.log ++ [FLog.armedEv] ++ (if doFire then fireChunk else []) ++
          [FLog.resultEv] }
    else none
  | .pollCycle =>
    match s.pending with
    | [] => none
    | p :: rest =>
      let P := p :: rest
      let out2 := s.outstanding - P.length
      let doFire := s.armed && (out2 == 0) && !s.fired
      some { s with
        pending := []
        outstanding := out2
        fired := s.fired || doFire
        retired := s.retired || doFire
        updatedSent := s.updatedSent || doFire
        log := s.log ++ P.map FLog.deltaEv ++ (if doFire then fireChunk else []) }

def runFEvents (s : FState) : List FEvent → Option FState
  | [] => some s
  | e :: evs => (fstep s e).bind (fun s2 => runFEvents s2 evs)

def deltaIds (l : List FLog) : List Nat :=
  l.filterMap (fun e => match e with | FLog.deltaEv i => some i | _ => none)

/-- The data messages among the fence log events. -/
def visibleMsg : FLog → Bool
  | FLog.resultEv => true
  | FLog.updatedEv => true
  | FLog.deltaEv _ => true
  | _ => false

/-- The fence invariant: the outstanding count matches the captured pending
writes, whose ids are the not-yet-delivered tail of the write sequence; the
delivered deltas are an initial range; firing needs an armed fence, arming
a finished handler; and once updated is sent, every delta of the method
precedes it in the log and none follows. -/
def fInv (s : FState) : Prop :=
  s.outstanding = s.pending.length ∧
  s.pending = List.range' (s.nWrites - s.pending.length) s.pending.length ∧
  s.pending.length ≤ s.nWrites ∧
  deltaIds s.log = List.range (s.nWrites - s.pending.length) ∧
  (s.fired = true → s.armed = true) ∧
  (s.armed = true → s.handlerDone = true) ∧
  s.updatedSent = s.fired ∧
  (s.fired = true → s.pending = []) ∧
  (s.updatedSent = false → FLog.updatedEv ∉ s.log) ∧
  (s.updatedSent = true → ∃ l1 l2, s.log = l1 ++ FLog.updatedEv :: l2 ∧
     FLog.updatedEv ∉ l1 ∧ FLog.updatedEv ∉ l2 ∧
     (∀ i, i < s.nWrites → FLog.deltaEv i ∈ l1) ∧ (∀ i, FLog.deltaEv i ∉ l2))

end Livedata

namespace Livedata

/-! ## Theorems -/

/-! ### Association list helpers -/

theorem asStringArray_loop (l : List String) (acc : List String) :
    List.mapM.loop (fun x => match x with | JsVal.str s => some s | _ => none)
      (l.map .str) acc = some (acc.reverse ++ l) := by
  induction l generalizing acc with
  | nil => simp [List.mapM.loop]
  | cons a t ih => simp [List.mapM.loop, ih]

theorem asStringArray_map_str (l : List String) :
    asStringArray (.array (l.map .str)) = some l := by
  simpa [asStringArray, List.mapM] using asStringArray_loop l []

/-! ### C2: version negotiation order -/

/-- C2 counterexample: the server negotiates the first version of the CLIENT
support list that the server also supports, not the first version of the
server preference list present in the client support.  For the connect
message with version 1 and support [1, 1a], the first server-preferred
common version would be 1a, but the code calculates 1, which equals the
proposed version, so the server replies connected rather than failed. -/
theorem connect_negotiation_counterexample :
    calculateVersion ["1", "1a"] SUPPORTED_DDP_VERSIONS = "1" ∧
    ("1" : String) ≠ "1a" ∧
    handleConnect exampleConnectMsg = .connected "1" ∧
    handleConnect exampleConnectMsg ≠ .failed "1a" := by
  refine ⟨by decide, by decide, by decide, by decide⟩

/-- C2 amended: for every connect message whose support list shares at least
one version with the server list, the negotiated version is the first
element of the client support list that the server also supports (every
earlier element of the support list is unsupported by the server); the
server replies failed and closes exactly when this version differs from the
proposed one, and otherwise creates a session. -/
theorem connect_negotiation_amended (v : String) (support : List String)
    (hmem : support.contains v = true)
    (hshare : ∃ s ∈ support, s ∈ SUPPORTED_DDP_VERSIONS) :
    ∃ w pre post,
      support = pre ++ w :: post ∧
      w ∈ SUPPORTED_DDP_VERSIONS ∧
      (∀ x ∈ pre, x ∉ SUPPORTED_DDP_VERSIONS) ∧
      handleConnect { version := .scalar (.str v), support := .array (support.map .str) } =
        (if v = w then .connected w else .failed w) := by
  obtain ⟨s, hs, hsin⟩ := hshare
  have hfind : (support.find? (fun version => SUPPORTED_DDP_VERSIONS.contains version)).isSome := by
    refine List.find?_isSome.mpr ⟨s, hs, ?_⟩
    simpa using hsin
  obtain ⟨w, hw⟩ := Option.isSome_iff_exists.mp hfind
  obtain ⟨hpw, pre, post, hsplit, hpre⟩ := List.find?_eq_some.mp hw
  have hwin : w ∈ SUPPORTED_DDP_VERSIONS := by
    simpa using hpw
  refine ⟨w, pre, post, hsplit, hwin, ?_, ?_⟩
  · intro x hx
    have := hpre x hx
    simpa using this
  · have harr : asStringArray (.array (support.map .str)) = some support :=
      asStringArray_map_str support
    have hcalc : calculateVersion support SUPPORTED_DDP_VERSIONS = w := by
      unfold calculateVersion
      rw [hw]
    simp only [handleConnect, harr, hmem, if_true, hcalc]
    by_cases hv : v = w
    · simp [hv]
    · simp [hv]

/-- C2 amended witness: instantiated at the example message, the negotiated
version is 1 (with an empty unsupported prefix) and the connection succeeds. -/
theorem connect_negotiation_amended_witness :
    (["1", "1a"] : List String).contains "1" = true ∧
    (∃ s ∈ (["1", "1a"] : List String), s ∈ SUPPORTED_DDP_VERSIONS) ∧
    ∃ w pre post,
      (["1", "1a"] : List String) = pre ++ w :: post ∧
      w ∈ SUPPORTED_DDP_VERSIONS ∧
      (∀ x ∈ pre, x ∉ SUPPORTED_DDP_VERSIONS) ∧
      handleConnect { version := .scalar (.str "1"),
                      support := .array ((["1", "1a"] : List String).map .str) } =
        (if "1" = w then .connected w else .failed w) :=
  ⟨by decide, ⟨"1", by decide, by decide⟩,
    connect_negotiation_amended "1" ["1", "1a"] (by decide) ⟨"1", by decide, by decide⟩⟩

/-! ### C10: rejecting connects whose version is not in their support list -/

/-- C10: a connect message whose version is a string that is not contained in
its own support list, or whose version or support field is malformed, is
answered with failed carrying the server most preferred version 1a, the
socket is closed and no session is created. -/
theorem connect_rejects_unsupported_version (msg : ConnectMsg)
    (h : ¬ ∃ v support, msg.version = .scalar (.str v) ∧
          asStringArray msg.support = some support ∧ v ∈ support) :
    handleConnect msg = .failed "1a" := by
  rcases msg with ⟨version, support⟩
  match hv : version, hs : asStringArray support with
  | .scalar (.str v), some ss =>
    have hnotin : ¬ v ∈ ss := fun hin => h ⟨v, ss, rfl, by simpa using hs, hin⟩
    simp [handleConnect, hs, hnotin, SUPPORTED_DDP_VERSIONS]
  | .scalar (.str v), none => simp [handleConnect, hs, SUPPORTED_DDP_VERSIONS]
  | .scalar .undef, o => simp [handleConnect, SUPPORTED_DDP_VERSIONS]
  | .scalar .null, o => simp [handleConnect, SUPPORTED_DDP_VERSIONS]
  | .scalar (.bool b), o => simp [handleConnect, SUPPORTED_DDP_VERSIONS]
  | .scalar (.num n), o => simp [handleConnect, SUPPORTED_DDP_VERSIONS]
  | .array xs, o => simp [handleConnect, SUPPORTED_DDP_VERSIONS]

/-- C10 witness: the message proposing version 1 (a version the server does
support) with support list [1a] not containing it is rejected with failed 1a. -/
theorem connect_rejects_unsupported_version_witness :
    (¬ ∃ v support,
        (ConnectMsg.mk (.scalar (.str "1")) (.array [.str "1a"])).version = .scalar (.str v) ∧
        asStringArray (ConnectMsg.mk (.scalar (.str "1")) (.array [.str "1a"])).support
          = some support ∧
        v ∈ support) ∧
    handleConnect (ConnectMsg.mk (.scalar (.str "1")) (.array [.str "1a"])) = .failed "1a" := by
  have hno : ¬ ∃ v support,
      (ConnectMsg.mk (.scalar (.str "1")) (.array [.str "1a"])).version = .scalar (.str v) ∧
      asStringArray (ConnectMsg.mk (.scalar (.str "1")) (.array [.str "1a"])).support
        = some support ∧
      v ∈ support := by
    rintro ⟨v, support, hv, hs, hin⟩
    have hv1 : v = "1" := by
      cases hv
      rfl
    have hsup : support = ["1a"] := by
      cases hs
      rfl
    subst hv1
    subst hsup
    simp at hin
  exact ⟨hno, connect_rejects_unsupported_version _ hno⟩

/-! ### C7: selector rewrite -/

/-- C7 counterexample: the empty object selector is truthy and has no _id
property, so rewriteSelector returns it unchanged instead of replacing it by
an unmatchable fresh-id selector, and the unchanged empty selector matches
for example the document with _id a. -/
theorem selector_rewrite_counterexample :
    rewriteSelector (.obj []) "R" = .ok (.obj []) ∧
    Selector.obj [] ≠ .obj [("_id", .str "R")] ∧
    selectorMatches [] [("_id", JsVal.str "a")] = true := by
  refine ⟨rfl, by decide, by decide⟩

/-- C7 amended: an array selector throws at cursor-description construction;
undefined, null, and objects with a falsy _id property are rewritten to the
unmatchable fresh-id selector, which matches no document whose _id differs
from the fresh id; but the empty object selector is returned unchanged and
matches every document. -/
theorem selector_rewrite_amended (freshId : String) (v : JsVal) (doc : StoreDoc)
    (hv : v.truthy = false)
    (hdoc : objGet doc "_id" ≠ some (.str freshId)) :
    mkCursorDescription "c" .array freshId = .error "Mongo selector cannot be an array." ∧
    rewriteSelector .undef freshId = .ok (.obj [("_id", .str freshId)]) ∧
    rewriteSelector .null freshId = .ok (.obj [("_id", .str freshId)]) ∧
    rewriteSelector (.obj [("_id", v)]) freshId = .ok (.obj [("_id", .str freshId)]) ∧
    selectorMatches [("_id", .str freshId)] doc = false ∧
    rewriteSelector (.obj []) freshId = .ok (.obj []) ∧
    selectorMatches [] doc = true := by
  refine ⟨rfl, rfl, rfl, ?_, ?_, rfl, rfl⟩
  · simp [rewriteSelector, Selector.truthy, Selector.hasIdProp, Selector.idProp,
      hasOwnProperty, objGet, hv]
  · simp [selectorMatches]
    intro h
    exact absurd h hdoc

/-- C7 amended witness: at the falsy _id value null, the fresh id R and the
document with _id a, all seven conjuncts hold. -/
theorem selector_rewrite_amended_witness :
    (JsVal.null.truthy = false) ∧
    (objGet [("_id", JsVal.str "a")] "_id" ≠ some (.str "R")) ∧
    mkCursorDescription "c" .array "R" = .error "Mongo selector cannot be an array." ∧
    rewriteSelector (Selector.undef) "R" = .ok (.obj [("_id", .str "R")]) ∧
    rewriteSelector .null "R" = .ok (.obj [("_id", .str "R")]) ∧
    rewriteSelector (.obj [("_id", .null)]) "R" = .ok (.obj [("_id", .str "R")]) ∧
    selectorMatches [("_id", .str "R")] [("_id", JsVal.str "a")] = false ∧
    rewriteSelector (.obj []) "R" = .ok (.obj []) ∧
    selectorMatches [] [("_id", JsVal.str "a")] = true := by
  refine ⟨by decide, by decide, ?_⟩
  exact selector_rewrite_amended "R" .null [("_id", JsVal.str "a")] (by decide) (by decide)

/-! ### Association-list lemmas shared by the crossbar and merge-box proofs -/

theorem objGet_mem {α : Type} {l : JsObj α} {k : String} {v : α}
    (h : objGet l k = some v) : (k, v) ∈ l := by
  induction l with
  | nil => simp [objGet] at h
  | cons p rest ih =>
    obtain ⟨k2, v2⟩ := p
    by_cases hk : k2 = k
    · subst hk
      simp [objGet] at h
      simp [h]
    · simp [objGet, hk] at h
      exact List.mem_cons_of_mem _ (ih h)

theorem objGet_of_mem_nodup {α : Type} {l : JsObj α} {k : String} {v : α}
    (hnd : (l.map Prod.fst).Nodup) (h : (k, v) ∈ l) : objGet l k = some v := by
  induction l with
  | nil => simp at h
  | cons p rest ih =>
    obtain ⟨k2, v2⟩ := p
    simp only [List.map_cons, List.nodup_cons] at hnd
    rcases List.mem_cons.mp h with heq | hmem
    · cases heq
      simp [objGet]
    · have hk : k2 ≠ k := by
        intro hkk
        subst hkk
        exact hnd.1 (List.mem_map.mpr ⟨(k2, v), hmem, rfl⟩)
      simp [objGet, hk]
      exact ih hnd.2 hmem

theorem mem_natObjDelete_of_ne {α : Type} {l : JsNatObj α} {j i : Nat} {v : α}
    (hne : j ≠ i) (h : (j, v) ∈ l) : (j, v) ∈ natObjDelete l i := by
  induction l with
  | nil => simp at h
  | cons p rest ih =>
    obtain ⟨k2, v2⟩ := p
    by_cases hk : k2 = i
    · subst hk
      rcases List.mem_cons.mp h with heq | hmem
      · cases heq
        exact absurd rfl hne
      · simpa [natObjDelete] using hmem
    · rcases List.mem_cons.mp h with heq | hmem
      · cases heq
        simp [natObjDelete, hk]
      · simp [natObjDelete, hk]
        right
        exact ih hmem

theorem natObjDelete_of_not_mem {α : Type} {l : JsNatObj α} {i : Nat}
    (h : i ∉ l.map Prod.fst) : natObjDelete l i = l := by
  induction l with
  | nil => rfl
  | cons p rest ih =>
    obtain ⟨k2, v2⟩ := p
    simp only [List.map_cons, List.mem_cons] at h
    push_neg at h
    simp only [natObjDelete]
    rw [if_neg (fun hkk => h.1 hkk.symm)]
    rw [ih h.2]

theorem not_mem_map_fst_natObjDelete {α : Type} {l : JsNatObj α} {i : Nat}
    (hnd : (l.map Prod.fst).Nodup) : i ∉ (natObjDelete l i).map Prod.fst := by
  induction l with
  | nil => simp [natObjDelete]
  | cons p rest ih =>
    obtain ⟨k2, v2⟩ := p
    simp only [List.map_cons, List.nodup_cons] at hnd
    by_cases hk : k2 = i
    · subst hk
      simpa [natObjDelete] using hnd.1
    · simp only [natObjDelete]
      rw [if_neg hk]
      simp only [List.map_cons, List.mem_cons]
      push_neg
      exact ⟨fun hkk => hk hkk.symm, ih hnd.2⟩

theorem objGet_cons_self {α : Type} (k : String) (v : α) (rest : JsObj α) :
    objGet ((k, v) :: rest) k = some v := by simp [objGet]

theorem objGet_cons_ne {α : Type} {k3 k : String} (h : k3 ≠ k) (v3 : α) (rest : JsObj α) :
    objGet ((k3, v3) :: rest) k = objGet rest k := by simp [objGet, h]

theorem objSet_cons_self {α : Type} (k : String) (v v3 : α) (rest : JsObj α) :
    objSet ((k, v3) :: rest) k v = (k, v) :: rest := by simp [objSet]

theorem objSet_cons_ne {α : Type} {k3 k : String} (h : k3 ≠ k) (v v3 : α) (rest : JsObj α) :
    objSet ((k3, v3) :: rest) k v = (k3, v3) :: objSet rest k v := by simp [objSet, h]

theorem objDelete_cons_self {α : Type} (k : String) (v3 : α) (rest : JsObj α) :
    objDelete ((k, v3) :: rest) k = rest := by simp [objDelete]

theorem objDelete_cons_ne {α : Type} {k3 k : String} (h : k3 ≠ k) (v3 : α) (rest : JsObj α) :
    objDelete ((k3, v3) :: rest) k = (k3, v3) :: objDelete rest k := by simp [objDelete, h]

theorem objGet_eq_none_iff {α : Type} (d : JsObj α) (k : String) :
    objGet d k = none ↔ k ∉ d.map Prod.fst := by
  induction d with
  | nil => simp [objGet]
  | cons p rest ih =>
    obtain ⟨k3, v3⟩ := p
    by_cases h3 : k3 = k
    · subst h3
      rw [objGet_cons_self]
      simp
    · rw [objGet_cons_ne h3, ih]
      constructor
      · intro hk
        simp only [List.map_cons, List.mem_cons]
        push_neg
        exact ⟨fun he => h3 he.symm, hk⟩
      · intro hk
        simp only [List.map_cons, List.mem_cons] at hk
        push_neg at hk
        exact hk.2

theorem mem_map_fst_objSet {α : Type} (d : JsObj α) (k : String) (v : α) (x : String) :
    x ∈ (objSet d k v).map Prod.fst ↔ x ∈ d.map Prod.fst ∨ x = k := by
  induction d with
  | nil => simp [objSet]
  | cons p rest ih =>
    obtain ⟨k3, v3⟩ := p
    by_cases h3 : k3 = k
    · subst h3
      rw [objSet_cons_self]
      simp
      tauto
    · rw [objSet_cons_ne h3]
      simp [ih]
      tauto

theorem nodup_map_fst_objSet {α : Type} (d : JsObj α) (k : String) (v : α)
    (h : (d.map Prod.fst).Nodup) : ((objSet d k v).map Prod.fst).Nodup := by
  induction d with
  | nil => simp [objSet]
  | cons p rest ih =>
    obtain ⟨k3, v3⟩ := p
    simp only [List.map_cons, List.nodup_cons] at h
    by_cases h3 : k3 = k
    · subst h3
      rw [objSet_cons_self]
      simp only [List.map_cons, List.nodup_cons]
      exact ⟨h.1, h.2⟩
    · rw [objSet_cons_ne h3]
      simp only [List.map_cons, List.nodup_cons]
      refine ⟨?_, ih h.2⟩
      intro hmem
      rcases (mem_map_fst_objSet rest k v k3).mp hmem with hm | hm
      · exact h.1 hm
      · exact h3 hm

theorem mem_objSet_elim {α : Type} {d : JsObj α} {k : String} {v : α} {kv : String × α}
    (h : kv ∈ objSet d k v) : kv ∈ d ∨ kv = (k, v) := by
  induction d with
  | nil => simpa [objSet] using h
  | cons p rest ih =>
    obtain ⟨k3, v3⟩ := p
    by_cases h3 : k3 = k
    · subst h3
      rw [objSet_cons_self] at h
      rcases List.mem_cons.mp h with h | h
      · exact Or.inr h
      · exact Or.inl (List.mem_cons_of_mem _ h)
    · rw [objSet_cons_ne h3] at h
      rcases List.mem_cons.mp h with h | h
      · exact Or.inl (by simp [h])
      · rcases ih h with h2 | h2
        · exact Or.inl (List.mem_cons_of_mem _ h2)
        · exact Or.inr h2

theorem objGet_objSet {α : Type} (d : JsObj α) (k : String) (v : α) (k2 : String) :
    objGet (objSet d k v) k2 = if k = k2 then some v else objGet d k2 := by
  induction d with
  | nil =>
    by_cases h : k = k2 <;> simp [objSet, objGet, h]
  | cons p rest ih =>
    obtain ⟨k3, v3⟩ := p
    by_cases h3 : k3 = k
    · subst h3
      rw [objSet_cons_self]
      by_cases h : k3 = k2
      · subst h
        rw [objGet_cons_self, if_pos rfl]
      · rw [objGet_cons_ne h, if_neg h, objGet_cons_ne h]
    · rw [objSet_cons_ne h3]
      by_cases h : k3 = k2
      · subst h
        have hk : k ≠ k3 := fun he => h3 he.symm
        rw [objGet_cons_self, if_neg hk, objGet_cons_self]
      · rw [objGet_cons_ne h, ih, objGet_cons_ne h]

theorem objGet_objDelete {α : Type} (d : JsObj α) (k : String) (k2 : String)
    (hnd : (d.map Prod.fst).Nodup) :
    objGet (objDelete d k) k2 = if k = k2 then none else objGet d k2 := by
  induction d with
  | nil =>
    by_cases h : k = k2 <;> simp [objDelete, objGet, h]
  | cons p rest ih =>
    obtain ⟨k3, v3⟩ := p
    simp only [List.map_cons, List.nodup_cons] at hnd
    by_cases h3 : k3 = k
    · subst h3
      rw [objDelete_cons_self]
      by_cases h : k3 = k2
      · subst h
        rw [if_pos rfl]
        exact (objGet_eq_none_iff rest k3).mpr hnd.1
      · rw [if_neg h, objGet_cons_ne h]
    · rw [objDelete_cons_ne h3]
      by_cases h : k3 = k2
      · subst h
        have hk : k ≠ k3 := fun he => h3 he.symm
        rw [objGet_cons_self, if_neg hk, objGet_cons_self]
      · rw [objGet_cons_ne h, objGet_cons_ne h, ih hnd.2]

theorem map_fst_objDelete_subset {α : Type} (d : JsObj α) (k : String) :
    ∀ x ∈ (objDelete d k).map Prod.fst, x ∈ d.map Prod.fst := by
  induction d with
  | nil => simp [objDelete]
  | cons p rest ih =>
    obtain ⟨k3, v3⟩ := p
    by_cases h3 : k3 = k
    · subst h3
      rw [objDelete_cons_self]
      intro x hx
      exact List.mem_cons_of_mem _ hx
    · rw [objDelete_cons_ne h3]
      simp only [List.map_cons, List.mem_cons]
      rintro x (hx | hx)
      · exact Or.inl hx
      · exact Or.inr (ih x hx)

theorem nodup_map_fst_objDelete {α : Type} (d : JsObj α) (k : String)
    (h : (d.map Prod.fst).Nodup) : ((objDelete d k).map Prod.fst).Nodup := by
  induction d with
  | nil => simp [objDelete]
  | cons p rest ih =>
    obtain ⟨k3, v3⟩ := p
    simp only [List.map_cons, List.nodup_cons] at h
    by_cases h3 : k3 = k
    · subst h3
      rw [objDelete_cons_self]
      exact h.2
    · rw [objDelete_cons_ne h3]
      simp only [List.map_cons, List.nodup_cons]
      exact ⟨fun hm => h.1 (map_fst_objDelete_subset rest k k3 hm), ih h.2⟩

/-! ### C5: crossbar matching rule -/

/-- C5 counterexample: a notification that LACKS a key present in the
trigger still matches and its callback is invoked by fire.  The listener on
the id-targeted trigger collection C id X is fired by the untargeted
notification collection C, which has no id key at all, contradicting the
claim that every trigger key must exist in the notification. -/
theorem crossbar_matching_counterexample :
    hasOwnProperty trigC "id" = false ∧
    hasOwnProperty trigCX "id" = true ∧
    crossbarMatches trigC trigCX = true ∧
    (crossbarListen emptyCrossbar trigCX).map
      (fun r => crossbarFire r.1 trigC) = .ok (.ok [1]) := by
  refine ⟨by decide, by decide, by decide, rfl⟩

/-- C5 amended: a listener callback is invoked by fire(N) iff the listener
is registered in the bucket of the notification collection and its trigger
matches N, where matching requires only that every key present in BOTH the
trigger and the notification has deep-equal values on the two sides; keys of
the trigger that are absent from the notification are ignored (and the
string-id fast path does not change this rule). -/
theorem crossbar_matching_amended (n t : JsObj JsVal) (hnd : (t.map Prod.fst).Nodup)
    (st : CrossbarState) (collection : String) (ids : List Nat)
    (hcol : collectionForMessage n = .ok collection)
    (hfire : crossbarFire st n = .ok ids) :
    (crossbarMatches n t = true ↔
      ∀ k tv nv, objGet t k = some tv → objGet n k = some nv → tv = nv) ∧
    (∀ id, id ∈ ids ↔ ∃ bucket trig,
        objGet st.listenersByCollection collection = some bucket ∧
        (id, trig) ∈ bucket ∧ crossbarMatches n trig = true) := by
  have hmatches : crossbarMatches n t =
      (!(idFastPathDiffers n t) && t.all (fun kv =>
        match objGet n kv.1 with
        | none => true
        | some nv => kv.2 == nv)) := by
    unfold crossbarMatches
    cases h : idFastPathDiffers n t <;> simp [h]
  constructor
  · rw [hmatches]
    simp only [Bool.and_eq_true, Bool.not_eq_true']
    constructor
    · rintro ⟨hfast, hall⟩ k tv nv htv hnv
      have hmemt : (k, tv) ∈ t := objGet_mem htv
      have := List.all_eq_true.mp hall (k, tv) hmemt
      simp only [hnv] at this
      exact beq_iff_eq.mp this
    · intro hrule
      constructor
      · unfold idFastPathDiffers
        cases hni : objGet n "id" with
        | none => rfl
        | some nv =>
          cases nv with
          | str a =>
            cases hti : objGet t "id" with
            | none => rfl
            | some tv =>
              cases tv with
              | str b =>
                have hba : JsVal.str b = JsVal.str a := hrule "id" (.str b) (.str a) hti hni
                have hba2 : b = a := by injection hba
                simp [hba2]
              | undef => rfl
              | null => rfl
              | bool c => rfl
              | num m => rfl
          | undef => rfl
          | null => rfl
          | bool c => rfl
          | num m => rfl
      · refine List.all_eq_true.mpr ?_
        rintro ⟨k, tv⟩ hmemt
        have htv : objGet t k = some tv := objGet_of_mem_nodup hnd hmemt
        cases hnv : objGet n k with
        | none => rfl
        | some nv =>
          have := hrule k tv nv htv hnv
          simp [this]
  · intro id
    cases hb : objGet st.listenersByCollection collection with
    | none =>
      simp only [crossbarFire, hcol, hb] at hfire
      have hids : ids = [] := by
        cases hfire
        rfl
      subst hids
      simp [hb]
    | some bucket =>
      simp only [crossbarFire, hcol, hb] at hfire
      have hids : ids = (bucket.filter (fun l => crossbarMatches n l.2)).map (fun l => l.1) := by
        cases hfire
        rfl
      subst hids
      constructor
      · intro hid
        obtain ⟨⟨i2, trig⟩, hmem, heq⟩ := List.mem_map.mp hid
        obtain ⟨hmem2, hmatch⟩ := List.mem_filter.mp hmem
        cases heq
        exact ⟨bucket, trig, rfl, hmem2, hmatch⟩
      · rintro ⟨bucket2, trig, hb2, hmem, hmatch⟩
        cases hb2
        exact List.mem_map.mpr ⟨(id, trig), List.mem_filter.mpr ⟨hmem, hmatch⟩, rfl⟩

/-- C5 amended witness: instantiated at the scenario registry holding the
single listener 1 on the id-targeted trigger, fired with the untargeted
notification: the matching rule holds and the invoked id list is exactly
the listener 1. -/
theorem crossbar_matching_amended_witness :
    ((trigCX.map Prod.fst).Nodup) ∧
    collectionForMessage trigC = .ok "C" ∧
    crossbarFire ⟨[("C", [(1, trigCX)])], [("C", .int 1)], 2⟩ trigC = .ok [1] ∧
    ((crossbarMatches trigC trigCX = true ↔
      ∀ k tv nv, objGet trigCX k = some tv → objGet trigC k = some nv → tv = nv) ∧
     (∀ id, id ∈ [1] ↔ ∃ bucket trig,
        objGet (CrossbarState.mk [("C", [(1, trigCX)])] [("C", .int 1)] 2).listenersByCollection
          "C" = some bucket ∧
        (id, trig) ∈ bucket ∧ crossbarMatches trigC trig = true)) := by
  refine ⟨by decide, rfl, rfl, ?_⟩
  exact crossbar_matching_amended trigC trigCX (by decide) _ "C" [1] rfl rfl

/-! ### C9: stop handles are not idempotent -/

/-- C9 counterexample: with listeners 1, 2, 3 registered on collection C,
stopping listener 1 twice changes the registry beyond the single stop (the
bucket count drops to 1 although two listeners remain), and after the
legitimate stop of listener 2 the corrupted count reaches zero, the bucket
is deleted, and the never-stopped listener 3 receives no further matching
notifications (fire returns the empty id list instead of the list holding 3). -/
theorem crossbar_stop_counterexample :
    ((do
      let r1 ← crossbarListen emptyCrossbar trigC
      let r2 ← crossbarListen r1.1 trigC
      let r3 ← crossbarListen r2.1 trigC
      return r3.1) = Except.ok c9Registry) ∧
    crossbarStop c9Registry "C" 1 = .ok c9AfterOneStop ∧
    crossbarStop c9AfterOneStop "C" 1 = .ok c9AfterDoubleStop ∧
    c9AfterDoubleStop ≠ c9AfterOneStop ∧
    crossbarStop c9AfterDoubleStop "C" 2 = .ok c9Corrupted ∧
    crossbarFire c9Corrupted trigC = .ok [] ∧
    crossbarStop c9AfterOneStop "C" 2 = .ok c9Healthy ∧
    crossbarFire c9Healthy trigC = .ok [3] := by
  refine ⟨rfl, rfl, rfl, by decide, rfl, rfl, rfl, rfl⟩

/-- C9 amended: a stop handle is NOT idempotent.  For a bucket of at least
three listeners with distinct ids, a single stop of listener i removes
exactly that listener and decrements the count, and every other listener
still receives every matching notification; but a second stop of the same
handle leaves the bucket unchanged while decrementing the count again, a
state different from the single-stop state (from which a later legitimate
stop can delete the whole bucket while listeners remain, as the
counterexample shows concretely). -/
theorem crossbar_stop_amended (trigs : JsNatObj (JsObj JsVal)) (c : String) (i : Nat)
    (nid : Nat) (hnd : (trigs.map Prod.fst).Nodup) (hlen : 3 ≤ trigs.length) :
    ∃ st2,
      crossbarStop ⟨[(c, trigs)], [(c, .int trigs.length)], nid⟩ c i = .ok st2 ∧
      st2 = ⟨[(c, natObjDelete trigs i)], [(c, .int ((trigs.length : Int) - 1))], nid⟩ ∧
      crossbarStop st2 c i =
        .ok ⟨[(c, natObjDelete trigs i)], [(c, .int ((trigs.length : Int) - 2))], nid⟩ ∧
      (JsNum.int ((trigs.length : Int) - 2)) ≠ .int ((trigs.length : Int) - 1) ∧
      (∀ j trig n ids, j ≠ i → (j, trig) ∈ trigs →
        collectionForMessage n = .ok c → crossbarMatches n trig = true →
        crossbarFire st2 n = .ok ids → j ∈ ids) := by
  have hlen1 : ((trigs.length : Int) - 1) ≠ 0 := by omega
  have hlen2 : ((trigs.length : Int) - 1 - 1) ≠ 0 := by omega
  have hdel : natObjDelete (natObjDelete trigs i) i = natObjDelete trigs i :=
    natObjDelete_of_not_mem (not_mem_map_fst_natObjDelete hnd)
  refine ⟨_, ?_, rfl, ?_, ?_, ?_⟩
  · simp [crossbarStop, objGet, objSet, JsNum.dec, JsNum.isZero, hlen1]
  · simp [crossbarStop, objGet, objSet, JsNum.dec, JsNum.isZero, hlen2, hdel]
    omega
  · intro h
    have := JsNum.int.inj h
    omega
  · intro j trig n ids hji hmem hcoln hmatch hfire
    have hb : objGet
        (CrossbarState.mk [(c, natObjDelete trigs i)]
          [(c, .int ((trigs.length : Int) - 1))] nid).listenersByCollection c
        = some (natObjDelete trigs i) := by
      simp [objGet]
    simp only [crossbarFire, hcoln, hb] at hfire
    have hids : ids = ((natObjDelete trigs i).filter
        (fun l => crossbarMatches n l.2)).map (fun l => l.1) := by
      cases hfire
      rfl
    subst hids
    refine List.mem_map.mpr ⟨(j, trig), List.mem_filter.mpr ⟨?_, hmatch⟩, rfl⟩
    exact mem_natObjDelete_of_ne hji hmem

/-- C9 amended witness: instantiated at the three-listener registry with
i = 1 and other listener j = 3 receiving the notification trigC. -/
theorem crossbar_stop_amended_witness :
    (([(1, trigC), (2, trigC), (3, trigC)].map Prod.fst).Nodup ∧
     3 ≤ [(1, trigC), (2, trigC), (3, trigC)].length) ∧
    ∃ st2,
      crossbarStop ⟨[("C", [(1, trigC), (2, trigC), (3, trigC)])],
        [("C", .int ([(1, trigC), (2, trigC), (3, trigC)] : JsNatObj (JsObj JsVal)).length)],
        4⟩ "C" 1 = .ok st2 ∧
      st2 = ⟨[("C", natObjDelete [(1, trigC), (2, trigC), (3, trigC)] 1)],
        [("C", .int ((([(1, trigC), (2, trigC), (3, trigC)] :
          JsNatObj (JsObj JsVal)).length : Int) - 1))], 4⟩ ∧
      crossbarStop st2 "C" 1 =
        .ok ⟨[("C", natObjDelete [(1, trigC), (2, trigC), (3, trigC)] 1)],
          [("C", .int ((([(1, trigC), (2, trigC), (3, trigC)] :
            JsNatObj (JsObj JsVal)).length : Int) - 2))], 4⟩ ∧
      (JsNum.int ((([(1, trigC), (2, trigC), (3, trigC)] :
          JsNatObj (JsObj JsVal)).length : Int) - 2)) ≠
        .int ((([(1, trigC), (2, trigC), (3, trigC)] :
          JsNatObj (JsObj JsVal)).length : Int) - 1) ∧
      (∀ j trig n ids, j ≠ 1 → (j, trig) ∈ [(1, trigC), (2, trigC), (3, trigC)] →
        collectionForMessage n = .ok "C" → crossbarMatches n trig = true →
        crossbarFire st2 n = .ok ids → j ∈ ids) :=
  ⟨⟨by decide, by decide⟩,
    crossbar_stop_amended [(1, trigC), (2, trigC), (3, trigC)] "C" 1 4 (by decide) (by decide)⟩

end Livedata

namespace Livedata

theorem spliceHandle_none_iff (h : String) (pl : List PrecedenceItem) :
    spliceHandle h pl = none ↔ h ∉ pl.map PrecedenceItem.subscriptionHandle := by
  induction pl with
  | nil => simp [spliceHandle]
  | cons p rest ih =>
    by_cases hp : p.subscriptionHandle = h
    · simp [spliceHandle, hp]
    · simp only [spliceHandle, if_neg hp, Option.map_eq_none', ih, List.map_cons,
        List.mem_cons]
      constructor
      · intro hm
        push_neg
        exact ⟨fun he => hp he.symm, hm⟩
      · intro hm
        push_neg at hm
        exact hm.2

theorem spliceHandle_some_sublist {h : String} {pl nl : List PrecedenceItem}
    (hs : spliceHandle h pl = some nl) : nl.Sublist pl := by
  induction pl generalizing nl with
  | nil => simp [spliceHandle] at hs
  | cons p rest ih =>
    by_cases hp : p.subscriptionHandle = h
    · simp only [spliceHandle, if_pos hp] at hs
      cases hs
      exact List.sublist_cons_self _ _
    · simp only [spliceHandle, if_neg hp, Option.map_eq_some'] at hs
      obtain ⟨nl2, hnl2, rfl⟩ := hs
      exact List.Sublist.cons₂ _ (ih hnl2)

theorem spliceHandle_not_mem {h : String} {pl nl : List PrecedenceItem}
    (hnd : (pl.map PrecedenceItem.subscriptionHandle).Nodup)
    (hs : spliceHandle h pl = some nl) :
    h ∉ nl.map PrecedenceItem.subscriptionHandle := by
  induction pl generalizing nl with
  | nil => simp [spliceHandle] at hs
  | cons p rest ih =>
    simp only [List.map_cons, List.nodup_cons] at hnd
    by_cases hp : p.subscriptionHandle = h
    · simp only [spliceHandle, if_pos hp] at hs
      cases hs
      rw [← hp]
      exact hnd.1
    · simp only [spliceHandle, if_neg hp, Option.map_eq_some'] at hs
      obtain ⟨nl2, hnl2, rfl⟩ := hs
      simp only [List.map_cons, List.mem_cons]
      push_neg
      exact ⟨fun he => hp he.symm, ih hnd.2 hnl2⟩

theorem updateHandleValue_none_iff (h : String) (v : JsVal) (pl : List PrecedenceItem) :
    updateHandleValue h v pl = none ↔ h ∉ pl.map PrecedenceItem.subscriptionHandle := by
  induction pl with
  | nil => simp [updateHandleValue]
  | cons p rest ih =>
    by_cases hp : p.subscriptionHandle = h
    · simp [updateHandleValue, hp]
    · simp only [updateHandleValue, if_neg hp, Option.map_eq_none', ih, List.map_cons,
        List.mem_cons]
      constructor
      · intro hm
        push_neg
        exact ⟨fun he => hp he.symm, hm⟩
      · intro hm
        push_neg at hm
        exact hm.2

theorem updateHandleValue_some_map {h : String} {v : JsVal} {pl nl : List PrecedenceItem}
    (hu : updateHandleValue h v pl = some nl) :
    nl.map PrecedenceItem.subscriptionHandle = pl.map PrecedenceItem.subscriptionHandle := by
  induction pl generalizing nl with
  | nil => simp [updateHandleValue] at hu
  | cons p rest ih =>
    by_cases hp : p.subscriptionHandle = h
    · simp only [updateHandleValue, if_pos hp] at hu
      cases hu
      simp [hp]
    · simp only [updateHandleValue, if_neg hp, Option.map_eq_some'] at hu
      obtain ⟨nl2, hnl2, rfl⟩ := hu
      simp [ih hnl2]

theorem updateHandleValue_some_mem {h : String} {v : JsVal} {pl nl : List PrecedenceItem}
    (hu : updateHandleValue h v pl = some nl) :
    ∀ p ∈ nl, p ∈ pl ∨ p = ⟨h, v⟩ := by
  induction pl generalizing nl with
  | nil => simp [updateHandleValue] at hu
  | cons p rest ih =>
    by_cases hp : p.subscriptionHandle = h
    · simp only [updateHandleValue, if_pos hp] at hu
      cases hu
      rintro q hq
      rcases List.mem_cons.mp hq with rfl | hq2
      · exact Or.inr rfl
      · exact Or.inl (List.mem_cons_of_mem _ hq2)
    · simp only [updateHandleValue, if_neg hp, Option.map_eq_some'] at hu
      obtain ⟨nl2, hnl2, rfl⟩ := hu
      rintro q hq
      rcases List.mem_cons.mp hq with rfl | hq2
      · exact Or.inl (List.mem_cons_self _ _)
      · rcases ih hnl2 q hq2 with hm | hm
        · exact Or.inl (List.mem_cons_of_mem _ hm)
        · exact Or.inr hm

theorem headD_append {α : Type} {l : List α} (l2 : List α) (d : α) (hl : l ≠ []) :
    (l ++ l2).headD d = l.headD d := by
  cases l with
  | nil => exact absurd rfl hl
  | cons a t => rfl

theorem changeField_spec (h k : String) (v : JsVal) (dv : SessionDocumentView)
    (cc : JsObj JsVal) (isAdd : Bool) (S : List String)
    (hid : k ≠ "_id") (hv : v ≠ JsVal.undef)
    (hwf : dataWF S dv.dataByKey) (hh : h ∈ S)
    (hadd : isAdd = true → ∀ pl, objGet dv.dataByKey k = some pl →
      h ∉ pl.map PrecedenceItem.subscriptionHandle) :
    (changeField h k v dv cc isAdd).1.existsIn = dv.existsIn ∧
    dataWF S (changeField h k v dv cc isAdd).1.dataByKey ∧
    (∀ k2, k2 ≠ k → objGet (changeField h k v dv cc isAdd).1.dataByKey k2 =
      objGet dv.dataByKey k2) ∧
    (((changeField h k v dv cc isAdd).2 = cc ∧
        fieldVisible (changeField h k v dv cc isAdd).1 k = fieldVisible dv k) ∨
     ((changeField h k v dv cc isAdd).2 = objSet cc k v ∧
        fieldVisible (changeField h k v dv cc isAdd).1 k = some v)) := by
  obtain ⟨hnd, hnid, hpl⟩ := hwf
  have hsetWF : ∀ nl, nl ≠ [] →
      (nl.map PrecedenceItem.subscriptionHandle).Nodup →
      (∀ p ∈ nl, p.subscriptionHandle ∈ S) → (∀ p ∈ nl, p.value ≠ JsVal.undef) →
      dataWF S (objSet dv.dataByKey k nl) := by
    intro nl h1 h2 h3 h4
    refine ⟨nodup_map_fst_objSet _ _ _ hnd, ?_, ?_⟩
    · intro hmem
      rcases (mem_map_fst_objSet _ _ _ _).mp hmem with hm | hm
      · exact hnid hm
      · exact hid hm.symm
    · intro k2 pl2 hg2
      rw [objGet_objSet] at hg2
      by_cases hk2 : k = k2
      · rw [if_pos hk2] at hg2
        cases hg2
        exact ⟨h1, h2, h3, h4⟩
      · rw [if_neg hk2] at hg2
        exact hpl k2 pl2 hg2
  have hother : ∀ nl k2, k2 ≠ k →
      objGet (objSet dv.dataByKey k nl) k2 = objGet dv.dataByKey k2 := by
    intro nl k2 hk2
    rw [objGet_objSet]
    rw [if_neg (fun he => hk2 he.symm)]
  have hvisSet : ∀ nl, fieldVisible ⟨dv.existsIn, objSet dv.dataByKey k nl⟩ k =
      some ((nl.headD noItem).value) := by
    intro nl
    simp only [fieldVisible, objGet_objSet, if_pos rfl]
    rfl
  cases hg : objGet dv.dataByKey k with
  | none =>
    have hres : changeField h k v dv cc isAdd =
        (⟨dv.existsIn, objSet dv.dataByKey k [⟨h, v⟩]⟩, objSet cc k v) := by
      simp only [changeField, if_neg hid, hg]
    rw [hres]
    refine ⟨rfl, ?_, hother _, Or.inr ⟨rfl, ?_⟩⟩
    · refine hsetWF _ (by simp) (by simp) ?_ ?_
      · intro p hp
        simp only [List.mem_singleton] at hp
        subst hp
        exact hh
      · intro p hp
        simp only [List.mem_singleton] at hp
        subst hp
        exact hv
    · rw [hvisSet]
      rfl
  | some pl =>
    obtain ⟨hne, hplnd, hplS, hplv⟩ := hpl k pl hg
    have hpushWF : h ∉ pl.map PrecedenceItem.subscriptionHandle →
        dataWF S (objSet dv.dataByKey k (pl ++ [⟨h, v⟩])) := by
      intro hnotin
      refine hsetWF _ (by simp) ?_ ?_ ?_
      · rw [List.map_append]
        simp only [List.map_cons, List.map_nil]
        rw [List.nodup_append]
        refine ⟨hplnd, by simp, ?_⟩
        intro x hx
        simp only [List.mem_singleton]
        intro he
        subst he
        exact hnotin hx
      · intro p hp
        rcases List.mem_append.mp hp with hm | hm
        · exact hplS p hm
        · simp only [List.mem_singleton] at hm
          subst hm
          exact hh
      · intro p hp
        rcases List.mem_append.mp hp with hm | hm
        · exact hplv p hm
        · simp only [List.mem_singleton] at hm
          subst hm
          exact hv
    have hvisOld : fieldVisible dv k = some ((pl.headD noItem).value) := by
      simp only [fieldVisible, hg]
      rfl
    cases isAdd with
    | true =>
      have hnotin : h ∉ pl.map PrecedenceItem.subscriptionHandle := hadd rfl pl hg
      have hres : changeField h k v dv cc true =
          (⟨dv.existsIn, objSet dv.dataByKey k (pl ++ [⟨h, v⟩])⟩, cc) := by
        simp only [changeField, if_neg hid, hg, eq_self_iff_true, if_true]
      rw [hres]
      refine ⟨rfl, hpushWF hnotin, hother _, Or.inl ⟨rfl, ?_⟩⟩
      rw [hvisSet, hvisOld, headD_append _ _ hne]
    | false =>
      cases hu : updateHandleValue h v pl with
      | none =>
        have hnotin : h ∉ pl.map PrecedenceItem.subscriptionHandle :=
          (updateHandleValue_none_iff h v pl).mp hu
        have hres : changeField h k v dv cc false =
            (⟨dv.existsIn, objSet dv.dataByKey k (pl ++ [⟨h, v⟩])⟩, cc) := by
          simp only [changeField, if_neg hid, hg, Bool.false_eq_true, if_false, hu]
        rw [hres]
        refine ⟨rfl, hpushWF hnotin, hother _, Or.inl ⟨rfl, ?_⟩⟩
        rw [hvisSet, hvisOld, headD_append _ _ hne]
      | some nl =>
        have hnlWF : dataWF S (objSet dv.dataByKey k nl) := by
          refine hsetWF _ ?_ ?_ ?_ ?_
          · intro hnl
            subst hnl
            have := updateHandleValue_some_map hu
            simp only [List.map_nil] at this
            exact hne (List.map_eq_nil_iff.mp this.symm)
          · rw [updateHandleValue_some_map hu]
            exact hplnd
          · intro p hp
            rcases updateHandleValue_some_mem hu p hp with hm | hm
            · exact hplS p hm
            · subst hm
              exact hh
          · intro p hp
            rcases updateHandleValue_some_mem hu p hp with hm | hm
            · exact hplv p hm
            · subst hm
              exact hv
        cases pl with
        | nil => exact absurd rfl hne
        | cons p0 rest =>
          by_cases hp0 : p0.subscriptionHandle = h
          · have hnl : nl = ⟨h, v⟩ :: rest := by
              simp only [updateHandleValue, if_pos hp0] at hu
              cases hu
              rfl
            subst hnl
            by_cases hvv : v = p0.value
            · have hcond : (p0.subscriptionHandle == h && v != p0.value) = false := by
                simp [hvv]
              have hres : changeField h k v dv cc false =
                  (⟨dv.existsIn, objSet dv.dataByKey k (⟨h, v⟩ :: rest)⟩, cc) := by
                simp only [changeField, if_neg hid, hg, Bool.false_eq_true, if_false, hu,
                  hcond]
              rw [hres]
              refine ⟨rfl, hnlWF, hother _, Or.inl ⟨rfl, ?_⟩⟩
              rw [hvisSet, hvisOld]
              simp [noItem, hvv]
            · have hcond : (p0.subscriptionHandle == h && v != p0.value) = true := by
                simp [hp0, hvv]
              have hres : changeField h k v dv cc false =
                  (⟨dv.existsIn, objSet dv.dataByKey k (⟨h, v⟩ :: rest)⟩,
                   objSet cc k v) := by
                simp only [changeField, if_neg hid, hg, Bool.false_eq_true, if_false, hu,
                  hcond, if_true]
              rw [hres]
              refine ⟨rfl, hnlWF, hother _, Or.inr ⟨rfl, ?_⟩⟩
              rw [hvisSet]
              rfl
          · have hnl2 : ∃ nl2, updateHandleValue h v rest = some nl2 ∧ nl = p0 :: nl2 := by
              simp only [updateHandleValue, if_neg hp0, Option.map_eq_some'] at hu
              obtain ⟨nl2, hnl2, rfl⟩ := hu
              exact ⟨nl2, hnl2, rfl⟩
            obtain ⟨nl2, hnl2, rfl⟩ := hnl2
            have hcond : (p0.subscriptionHandle == h && v != p0.value) = false := by
              simp [hp0]
            have hres : changeField h k v dv cc false =
                (⟨dv.existsIn, objSet dv.dataByKey k (p0 :: nl2)⟩, cc) := by
              simp only [changeField, if_neg hid, hg, Bool.false_eq_true, if_false, hu,
                hcond]
            rw [hres]
            refine ⟨rfl, hnlWF, hother _, Or.inl ⟨rfl, ?_⟩⟩
            rw [hvisSet, hvisOld]
            rfl

theorem headD_mem {α : Type} {l : List α} (d : α) (hl : l ≠ []) : l.headD d ∈ l := by
  cases l with
  | nil => exact absurd rfl hl
  | cons a t => exact List.mem_cons_self _ _

theorem clearField_spec (h k : String) (dv : SessionDocumentView) (cc : JsObj JsVal)
    (S : List String) (hid : k ≠ "_id") (hwf : dataWF S dv.dataByKey) :
    (clearField h k dv cc).1.existsIn = dv.existsIn ∧
    dataWF S (clearField h k dv cc).1.dataByKey ∧
    (∀ k2, k2 ≠ k → objGet (clearField h k dv cc).1.dataByKey k2 = objGet dv.dataByKey k2) ∧
    (∀ pl2, objGet (clearField h k dv cc).1.dataByKey k = some pl2 →
        h ∉ pl2.map PrecedenceItem.subscriptionHandle) ∧
    (((clearField h k dv cc).2 = cc ∧
        fieldVisible (clearField h k dv cc).1 k = fieldVisible dv k) ∨
     ((clearField h k dv cc).2 = objSet cc k JsVal.undef ∧
        fieldVisible (clearField h k dv cc).1 k = none) ∨
     (∃ w, w ≠ JsVal.undef ∧ (clearField h k dv cc).2 = objSet cc k w ∧
        fieldVisible (clearField h k dv cc).1 k = some w)) := by
  obtain ⟨hnd, hnid, hpl⟩ := hwf
  have hsetWF : ∀ nl, nl ≠ [] →
      (nl.map PrecedenceItem.subscriptionHandle).Nodup →
      (∀ p ∈ nl, p.subscriptionHandle ∈ S) → (∀ p ∈ nl, p.value ≠ JsVal.undef) →
      dataWF S (objSet dv.dataByKey k nl) := by
    intro nl h1 h2 h3 h4
    refine ⟨nodup_map_fst_objSet _ _ _ hnd, ?_, ?_⟩
    · intro hmem
      rcases (mem_map_fst_objSet _ _ _ _).mp hmem with hm | hm
      · exact hnid hm
      · exact hid hm.symm
    · intro k2 pl2 hg2
      rw [objGet_objSet] at hg2
      by_cases hk2 : k = k2
      · rw [if_pos hk2] at hg2
        cases hg2
        exact ⟨h1, h2, h3, h4⟩
      · rw [if_neg hk2] at hg2
        exact hpl k2 pl2 hg2
  have hother : ∀ nl k2, k2 ≠ k →
      objGet (objSet dv.dataByKey k nl) k2 = objGet dv.dataByKey k2 := by
    intro nl k2 hk2
    rw [objGet_objSet]
    rw [if_neg (fun he => hk2 he.symm)]
  have hvisSet : ∀ nl, fieldVisible ⟨dv.existsIn, objSet dv.dataByKey k nl⟩ k =
      some ((nl.headD noItem).value) := by
    intro nl
    simp only [fieldVisible, objGet_objSet, if_pos rfl]
    rfl
  cases hg : objGet dv.dataByKey k with
  | none =>
    have hres : clearField h k dv cc = (dv, cc) := by
      simp only [clearField, if_neg hid, hg]
    rw [hres]
    refine ⟨rfl, ⟨hnd, hnid, hpl⟩, fun k2 _ => rfl, ?_, Or.inl ⟨rfl, rfl⟩⟩
    intro pl2 hg2
    have hg2b : objGet dv.dataByKey k = some pl2 := hg2
    rw [hg] at hg2b
    cases hg2b
  | some pl =>
    obtain ⟨hne, hplnd, hplS, hplv⟩ := hpl k pl hg
    have hvisOld : fieldVisible dv k = some ((pl.headD noItem).value) := by
      simp only [fieldVisible, hg]
      rfl
    cases hs : spliceHandle h pl with
    | none =>
      have hres : clearField h k dv cc = (dv, cc) := by
        simp only [clearField, if_neg hid, hg, hs]
      rw [hres]
      refine ⟨rfl, ⟨hnd, hnid, hpl⟩, fun k2 _ => rfl, ?_, Or.inl ⟨rfl, rfl⟩⟩
      intro pl2 hg2
      have hg2b : objGet dv.dataByKey k = some pl2 := hg2
      rw [hg] at hg2b
      cases hg2b
      exact (spliceHandle_none_iff h pl).mp hs
    | some nl =>
      have hnlsub : nl.Sublist pl := spliceHandle_some_sublist hs
      have hnlh : h ∉ nl.map PrecedenceItem.subscriptionHandle :=
        spliceHandle_not_mem hplnd hs
      by_cases hnl0 : nl = []
      · subst hnl0
        have hres : clearField h k dv cc =
            (⟨dv.existsIn, objDelete dv.dataByKey k⟩, objSet cc k JsVal.undef) := by
          simp only [clearField, if_neg hid, hg, hs, eq_self_iff_true, if_true]
        rw [hres]
        refine ⟨rfl, ?_, ?_, ?_, Or.inr (Or.inl ⟨rfl, ?_⟩)⟩
        · refine ⟨nodup_map_fst_objDelete _ _ hnd, ?_, ?_⟩
          · intro hmem
            exact hnid (map_fst_objDelete_subset _ _ _ hmem)
          · intro k2 pl2 hg2
            rw [objGet_objDelete _ _ _ hnd] at hg2
            by_cases hk2 : k = k2
            · rw [if_pos hk2] at hg2
              cases hg2
            · rw [if_neg hk2] at hg2
              exact hpl k2 pl2 hg2
        · intro k2 hk2
          rw [objGet_objDelete _ _ _ hnd]
          rw [if_neg (fun he => hk2 he.symm)]
        · intro pl2 hg2
          simp only [objGet_objDelete _ _ _ hnd, eq_self_iff_true, if_true] at hg2
          cases hg2
        · simp only [fieldVisible, objGet_objDelete _ _ _ hnd, eq_self_iff_true, if_true]
          rfl
      · have hnlWF : dataWF S (objSet dv.dataByKey k nl) := by
          refine hsetWF _ hnl0 ?_ ?_ ?_
          · exact hplnd.sublist (hnlsub.map PrecedenceItem.subscriptionHandle)
          · exact fun p hp => hplS p (hnlsub.subset hp)
          · exact fun p hp => hplv p (hnlsub.subset hp)
        have hget4 : ∀ pl2, objGet (objSet dv.dataByKey k nl) k = some pl2 →
            h ∉ pl2.map PrecedenceItem.subscriptionHandle := by
          intro pl2 hg2
          simp only [objGet_objSet, if_pos rfl] at hg2
          cases hg2
          exact hnlh
        cases pl with
        | nil => exact absurd rfl hne
        | cons p0 rest =>
          by_cases hp0 : p0.subscriptionHandle = h
          · have hnlr : nl = rest := by
              simp only [spliceHandle, if_pos hp0] at hs
              cases hs
              rfl
            subst hnlr
            have hp0v : p0.value ≠ JsVal.undef := hplv p0 (List.mem_cons_self _ _)
            by_cases hcond : p0.value ≠ JsVal.undef ∧ p0.value ≠ (nl.headD noItem).value
            · have hres : clearField h k dv cc =
                  (⟨dv.existsIn, objSet dv.dataByKey k nl⟩,
                   objSet cc k ((nl.headD noItem).value)) := by
                simp only [clearField, if_neg hid, hg, hs, if_neg hnl0, if_pos hp0,
                  if_pos hcond]
              rw [hres]
              refine ⟨rfl, hnlWF, hother _, hget4, Or.inr (Or.inr
                ⟨(nl.headD noItem).value, ?_, rfl, ?_⟩)⟩
              · exact hplv _ (List.mem_cons_of_mem _ (headD_mem _ hnl0))
              · rw [hvisSet]
            · have hres : clearField h k dv cc =
                  (⟨dv.existsIn, objSet dv.dataByKey k nl⟩, cc) := by
                simp only [clearField, if_neg hid, hg, hs, if_neg hnl0, if_pos hp0,
                  if_neg hcond]
              rw [hres]
              have hval : p0.value = (nl.headD noItem).value := by
                by_contra hvne
                exact hcond ⟨hp0v, hvne⟩
              refine ⟨rfl, hnlWF, hother _, hget4, Or.inl ⟨rfl, ?_⟩⟩
              rw [hvisSet, hvisOld]
              simp only [List.headD_cons]
              rw [hval]
          · have hnlr : ∃ nl2, spliceHandle h rest = some nl2 ∧ nl = p0 :: nl2 := by
              simp only [spliceHandle, if_neg hp0, Option.map_eq_some'] at hs
              obtain ⟨nl2, hnl2, rfl⟩ := hs
              exact ⟨nl2, hnl2, rfl⟩
            obtain ⟨nl2, hnl2, rfl⟩ := hnlr
            have hcondf : ¬ (JsVal.undef ≠ JsVal.undef ∧
                JsVal.undef ≠ ((p0 :: nl2).headD noItem).value) := by
              intro hc
              exact hc.1 rfl
            have hres : clearField h k dv cc =
                (⟨dv.existsIn, objSet dv.dataByKey k (p0 :: nl2)⟩, cc) := by
              simp only [clearField, if_neg hid, hg, hs, if_neg hnl0, if_neg hp0,
                if_neg hcondf]
            rw [hres]
            refine ⟨rfl, hnlWF, hother _, hget4, Or.inl ⟨rfl, ?_⟩⟩
            rw [hvisSet, hvisOld]
            rfl

theorem setAdd_nodup (s : List String) (x : String) (h : s.Nodup) : (setAdd s x).Nodup := by
  unfold setAdd
  by_cases hx : x ∈ s
  · simpa [hx] using h
  · simp only [hx, if_false]
    simpa [List.nodup_append] using ⟨h, fun he => hx he⟩

theorem mem_setAdd (s : List String) (x y : String) :
    y ∈ setAdd s x ↔ y ∈ s ∨ y = x := by
  unfold setAdd
  by_cases hx : x ∈ s
  · simp only [hx, if_true]
    constructor
    · exact Or.inl
    · rintro (hy | rfl)
      · exact hy
      · exact hx
  · simp [hx]

theorem setAdd_ne_nil (s : List String) (x : String) : setAdd s x ≠ [] := by
  unfold setAdd
  by_cases hx : x ∈ s
  · simp only [hx, if_true]
    rintro rfl
    simp at hx
  · simp [hx]

theorem setDelete_nodup (s : List String) (x : String) (h : s.Nodup) :
    (setDelete s x).Nodup := h.filter _

theorem mem_setDelete (s : List String) (x y : String) :
    y ∈ setDelete s x ↔ y ∈ s ∧ y ≠ x := by
  unfold setDelete
  simp [List.mem_filter]

theorem applyChangedFields_nodup (doc cc : JsObj JsVal)
    (hdoc : (doc.map Prod.fst).Nodup) :
    ((applyChangedFields doc cc).map Prod.fst).Nodup := by
  induction cc generalizing doc with
  | nil => exact hdoc
  | cons kv rest ih =>
    obtain ⟨k2, v2⟩ := kv
    unfold applyChangedFields
    simp only [List.foldl_cons]
    by_cases hv2 : v2 = JsVal.undef
    · simp only [hv2, if_pos rfl]
      exact ih _ (nodup_map_fst_objDelete _ _ hdoc)
    · simp only [if_neg hv2]
      exact ih _ (nodup_map_fst_objSet _ _ _ hdoc)

theorem applyChangedFields_get_of_none (doc cc : JsObj JsVal) (k : String)
    (hdoc : (doc.map Prod.fst).Nodup)
    (hget : objGet cc k = none) :
    objGet (applyChangedFields doc cc) k = objGet doc k := by
  induction cc generalizing doc with
  | nil => rfl
  | cons kv rest ih =>
    obtain ⟨k2, v2⟩ := kv
    have hk2 : k2 ≠ k := by
      intro he
      subst he
      rw [objGet_cons_self] at hget
      cases hget
    rw [objGet_cons_ne hk2] at hget
    unfold applyChangedFields
    simp only [List.foldl_cons]
    by_cases hv2 : v2 = JsVal.undef
    · simp only [hv2, eq_self_iff_true, if_true]
      show objGet (applyChangedFields (objDelete doc k2) rest) k = objGet doc k
      rw [ih (objDelete doc k2) (nodup_map_fst_objDelete _ _ hdoc) hget,
        objGet_objDelete _ _ _ hdoc, if_neg hk2]
    · simp only [if_neg hv2]
      show objGet (applyChangedFields (objSet doc k2 v2) rest) k = objGet doc k
      rw [ih (objSet doc k2 v2) (nodup_map_fst_objSet _ _ _ hdoc) hget,
        objGet_objSet, if_neg hk2]

theorem applyChangedFields_get (doc cc : JsObj JsVal) (k : String)
    (hccnd : (cc.map Prod.fst).Nodup) (hdoc : (doc.map Prod.fst).Nodup) :
    objGet (applyChangedFields doc cc) k =
      (match objGet cc k with
       | none => objGet doc k
       | some JsVal.undef => none
       | some v => some v) := by
  induction cc generalizing doc with
  | nil => rfl
  | cons kv rest ih =>
    obtain ⟨k2, v2⟩ := kv
    simp only [List.map_cons, List.nodup_cons] at hccnd
    unfold applyChangedFields
    simp only [List.foldl_cons]
    by_cases hk2 : k2 = k
    · subst hk2
      rw [objGet_cons_self]
      have hrest : objGet rest k2 = none := (objGet_eq_none_iff rest k2).mpr hccnd.1
      by_cases hv2 : v2 = JsVal.undef
      · simp only [hv2, eq_self_iff_true, if_true]
        show objGet (applyChangedFields (objDelete doc k2) rest) k2 =
          (match some JsVal.undef with
           | none => objGet doc k2
           | some JsVal.undef => none
           | some v => some v)
        rw [applyChangedFields_get_of_none (objDelete doc k2) rest k2
          (nodup_map_fst_objDelete _ _ hdoc) hrest]
        rw [objGet_objDelete _ _ _ hdoc, if_pos rfl]
      · simp only [if_neg hv2]
        show objGet (applyChangedFields (objSet doc k2 v2) rest) k2 = _
        rw [applyChangedFields_get_of_none (objSet doc k2 v2) rest k2
          (nodup_map_fst_objSet _ _ _ hdoc) hrest]
        rw [objGet_objSet, if_pos rfl]
    · rw [objGet_cons_ne hk2]
      by_cases hv2 : v2 = JsVal.undef
      · simp only [hv2, eq_self_iff_true, if_true]
        show objGet (applyChangedFields (objDelete doc k2) rest) k = _
        rw [ih (objDelete doc k2) hccnd.2 (nodup_map_fst_objDelete _ _ hdoc)]
        rw [objGet_objDelete _ _ _ hdoc, if_neg hk2]
      · simp only [if_neg hv2]
        show objGet (applyChangedFields (objSet doc k2 v2) rest) k = _
        rw [ih (objSet doc k2 v2) hccnd.2 (nodup_map_fst_objSet _ _ _ hdoc)]
        rw [objGet_objSet, if_neg hk2]

theorem fieldVisible_eq_of_get_eq {dv2 dv : SessionDocumentView} {k : String}
    (h : objGet dv2.dataByKey k = objGet dv.dataByKey k) :
    fieldVisible dv2 k = fieldVisible dv k := by
  simp only [fieldVisible, h]

theorem ccInv_preserve (dv0 dv dv2 : SessionDocumentView) (cc cc2 : JsObj JsVal) (k : String)
    (hinv : ccInv dv0 dv cc)
    (hother : ∀ k2, k2 ≠ k → objGet dv2.dataByKey k2 = objGet dv.dataByKey k2)
    (hcase : (cc2 = cc ∧ fieldVisible dv2 k = fieldVisible dv k) ∨
             (∃ w, cc2 = objSet cc k w ∧
                ((w = JsVal.undef ∧ fieldVisible dv2 k = none) ∨
                 (w ≠ JsVal.undef ∧ fieldVisible dv2 k = some w)))) :
    ccInv dv0 dv2 cc2 := by
  obtain ⟨hccnd, hcc⟩ := hinv
  rcases hcase with ⟨rfl, hvis⟩ | ⟨w, rfl, hw⟩
  · refine ⟨hccnd, fun k2 => ?_⟩
    by_cases hk2 : k2 = k
    · subst hk2
      refine ⟨fun hn => ?_, fun hu => ?_, fun v hv hg => ?_⟩
      · rw [hvis]
        exact (hcc k2).1 hn
      · rw [hvis]
        exact (hcc k2).2.1 hu
      · rw [hvis]
        exact (hcc k2).2.2 v hv hg
    · have hvis2 : fieldVisible dv2 k2 = fieldVisible dv k2 :=
        fieldVisible_eq_of_get_eq (hother k2 hk2)
      refine ⟨fun hn => ?_, fun hu => ?_, fun v hv hg => ?_⟩
      · rw [hvis2]
        exact (hcc k2).1 hn
      · rw [hvis2]
        exact (hcc k2).2.1 hu
      · rw [hvis2]
        exact (hcc k2).2.2 v hv hg
  · refine ⟨nodup_map_fst_objSet _ _ _ hccnd, fun k2 => ?_⟩
    by_cases hk2 : k2 = k
    · subst hk2
      refine ⟨fun hn => ?_, fun hu => ?_, fun v hv hg => ?_⟩
      · rw [objGet_objSet, if_pos rfl] at hn
        cases hn
      · rw [objGet_objSet, if_pos rfl] at hu
        cases hu
        rcases hw with ⟨_, hvis⟩ | ⟨hne, _⟩
        · exact hvis
        · exact absurd rfl hne
      · rw [objGet_objSet, if_pos rfl] at hg
        cases hg
        rcases hw with ⟨rfl, _⟩ | ⟨_, hvis⟩
        · exact absurd rfl hv
        · exact hvis
    · have hvis2 : fieldVisible dv2 k2 = fieldVisible dv k2 :=
        fieldVisible_eq_of_get_eq (hother k2 hk2)
      have hget : objGet (objSet cc k w) k2 = objGet cc k2 := by
        rw [objGet_objSet]
        rw [if_neg (fun he => hk2 he.symm)]
      refine ⟨fun hn => ?_, fun hu => ?_, fun v hv hg => ?_⟩
      · rw [hget] at hn
        rw [hvis2]
        exact (hcc k2).1 hn
      · rw [hget] at hu
        rw [hvis2]
        exact (hcc k2).2.1 hu
      · rw [hget] at hg
        rw [hvis2]
        exact (hcc k2).2.2 v hv hg

theorem changeField_id (h : String) (v : JsVal) (dv : SessionDocumentView)
    (cc : JsObj JsVal) (isAdd : Bool) :
    changeField h "_id" v dv cc isAdd = (dv, cc) := by
  simp [changeField]

theorem clearField_id (h : String) (dv : SessionDocumentView) (cc : JsObj JsVal) :
    clearField h "_id" dv cc = (dv, cc) := by
  simp [clearField]

/-- The fold of changeField with isAdd over the fields of an added document:
it preserves the handle set, data well-formedness and the collector
invariant, never collects an undefined value, and never touches a key whose
precedence lists already avoid the handle unless the key is one of the
remaining fields. -/
theorem foldAdd_spec (h : String) (S : List String) (hh : h ∈ S) :
    ∀ (fields : List (String × JsVal)) (dv0 dv : SessionDocumentView) (cc : JsObj JsVal),
    dataWF S dv.dataByKey →
    (fields.map Prod.fst).Nodup →
    (∀ kv ∈ fields, kv.2 ≠ JsVal.undef) →
    (∀ k pl, k ∈ fields.map Prod.fst → objGet dv.dataByKey k = some pl →
       h ∉ pl.map PrecedenceItem.subscriptionHandle) →
    ccInv dv0 dv cc →
    (∀ kv ∈ cc, kv.2 ≠ JsVal.undef) →
    ((fields.foldl (fun acc kv => changeField h kv.1 kv.2 acc.1 acc.2 true) (dv, cc)).1.existsIn
        = dv.existsIn) ∧
    dataWF S (fields.foldl (fun acc kv => changeField h kv.1 kv.2 acc.1 acc.2 true)
        (dv, cc)).1.dataByKey ∧
    ccInv dv0 (fields.foldl (fun acc kv => changeField h kv.1 kv.2 acc.1 acc.2 true) (dv, cc)).1
      (fields.foldl (fun acc kv => changeField h kv.1 kv.2 acc.1 acc.2 true) (dv, cc)).2 ∧
    (∀ kv ∈ (fields.foldl (fun acc kv => changeField h kv.1 kv.2 acc.1 acc.2 true) (dv, cc)).2,
       kv.2 ≠ JsVal.undef) := by
  intro fields
  induction fields with
  | nil =>
    intro dv0 dv cc hwf hnd hvals huntouched hinv hccv
    exact ⟨rfl, hwf, hinv, hccv⟩
  | cons kv rest ih =>
    intro dv0 dv cc hwf hnd hvals huntouched hinv hccv
    obtain ⟨k, v⟩ := kv
    simp only [List.map_cons, List.nodup_cons] at hnd
    simp only [List.foldl_cons]
    by_cases hid : k = "_id"
    · subst hid
      rw [changeField_id]
      refine ih dv0 dv cc hwf hnd.2 ?_ ?_ hinv hccv
      · exact fun kv2 hm => hvals kv2 (List.mem_cons_of_mem _ hm)
      · exact fun k2 pl hk2 => huntouched k2 pl (List.mem_cons_of_mem _ hk2)
    · have hv : v ≠ JsVal.undef := hvals (k, v) (List.mem_cons_self _ _)
      obtain ⟨hex, hwf2, hother, hcase⟩ := changeField_spec h k v dv cc true S hid hv hwf hh
        (fun _ pl hg => huntouched k pl (List.mem_cons_self _ _) hg)
      have h1 : ∀ kv2 ∈ rest, kv2.2 ≠ JsVal.undef :=
        fun kv2 hm => hvals kv2 (List.mem_cons_of_mem _ hm)
      have h2 : ∀ k2 pl, k2 ∈ rest.map Prod.fst →
          objGet (changeField h k v dv cc true).1.dataByKey k2 = some pl →
          h ∉ pl.map PrecedenceItem.subscriptionHandle := by
        intro k2 pl hk2 hg2
        have hk2k : k2 ≠ k := fun he => hnd.1 (he ▸ hk2)
        rw [hother k2 hk2k] at hg2
        exact huntouched k2 pl (List.mem_cons_of_mem _ hk2) hg2
      have h3 : ccInv dv0 (changeField h k v dv cc true).1
          (changeField h k v dv cc true).2 := by
        refine ccInv_preserve dv0 dv _ cc _ k hinv hother ?_
        rcases hcase with ⟨hcc, hvis⟩ | ⟨hcc, hvis⟩
        · exact Or.inl ⟨hcc, hvis⟩
        · exact Or.inr ⟨v, hcc, Or.inr ⟨hv, hvis⟩⟩
      have h4 : ∀ kv2 ∈ (changeField h k v dv cc true).2, kv2.2 ≠ JsVal.undef := by
        rcases hcase with ⟨hcc, _⟩ | ⟨hcc, _⟩
        · rw [hcc]
          exact hccv
        · rw [hcc]
          intro kv2 hm
          rcases mem_objSet_elim hm with hm2 | hm2
          · exact hccv kv2 hm2
          · rw [hm2]
            exact hv
      have hstep := ih dv0 (changeField h k v dv cc true).1
        (changeField h k v dv cc true).2 hwf2 hnd.2 h1 h2 h3 h4
      rw [Prod.mk.eta] at hstep
      exact ⟨hstep.1.trans hex, hstep.2.1, hstep.2.2.1, hstep.2.2.2⟩

/-- The fold of clearField and changeField over the fields of a changed
document: preserves the handle set, data well-formedness and the collector
invariant. -/
theorem foldChange_spec (h : String) (S : List String) (hh : h ∈ S) :
    ∀ (fields : List (String × JsVal)) (dv0 dv : SessionDocumentView) (cc : JsObj JsVal),
    dataWF S dv.dataByKey →
    ccInv dv0 dv cc →
    ((fields.foldl (fun acc kv => if kv.2 = JsVal.undef then clearField h kv.1 acc.1 acc.2
        else changeField h kv.1 kv.2 acc.1 acc.2 false) (dv, cc)).1.existsIn = dv.existsIn) ∧
    dataWF S (fields.foldl (fun acc kv => if kv.2 = JsVal.undef then clearField h kv.1 acc.1 acc.2
        else changeField h kv.1 kv.2 acc.1 acc.2 false) (dv, cc)).1.dataByKey ∧
    ccInv dv0 (fields.foldl (fun acc kv => if kv.2 = JsVal.undef then clearField h kv.1 acc.1 acc.2
        else changeField h kv.1 kv.2 acc.1 acc.2 false) (dv, cc)).1
      (fields.foldl (fun acc kv => if kv.2 = JsVal.undef then clearField h kv.1 acc.1 acc.2
        else changeField h kv.1 kv.2 acc.1 acc.2 false) (dv, cc)).2 := by
  intro fields
  induction fields with
  | nil =>
    intro dv0 dv cc hwf hinv
    exact ⟨rfl, hwf, hinv⟩
  | cons kv rest ih =>
    intro dv0 dv cc hwf hinv
    obtain ⟨k, v⟩ := kv
    simp only [List.foldl_cons]
    by_cases hv : v = JsVal.undef
    · simp only [hv, eq_self_iff_true, if_true]
      by_cases hid : k = "_id"
      · subst hid
        rw [clearField_id]
        exact ih dv0 dv cc hwf hinv
      · obtain ⟨hex, hwf2, hother, _, hcase⟩ := clearField_spec h k dv cc S hid hwf
        have h3 : ccInv dv0 (clearField h k dv cc).1 (clearField h k dv cc).2 := by
          refine ccInv_preserve dv0 dv _ cc _ k hinv hother ?_
          rcases hcase with ⟨hcc, hvis⟩ | ⟨hcc, hvis⟩ | ⟨w, hw, hcc, hvis⟩
          · exact Or.inl ⟨hcc, hvis⟩
          · exact Or.inr ⟨JsVal.undef, hcc, Or.inl ⟨rfl, hvis⟩⟩
          · exact Or.inr ⟨w, hcc, Or.inr ⟨hw, hvis⟩⟩
        have hstep := ih dv0 (clearField h k dv cc).1 (clearField h k dv cc).2 hwf2 h3
        rw [Prod.mk.eta] at hstep
        exact ⟨hstep.1.trans hex, hstep.2.1, hstep.2.2⟩
    · simp only [if_neg hv]
      by_cases hid : k = "_id"
      · subst hid
        rw [changeField_id]
        exact ih dv0 dv cc hwf hinv
      · obtain ⟨hex, hwf2, hother, hcase⟩ := changeField_spec h k v dv cc false S hid hv hwf hh
          (fun hfalse => by cases hfalse)
        have h3 : ccInv dv0 (changeField h k v dv cc false).1
            (changeField h k v dv cc false).2 := by
          refine ccInv_preserve dv0 dv _ cc _ k hinv hother ?_
          rcases hcase with ⟨hcc, hvis⟩ | ⟨hcc, hvis⟩
          · exact Or.inl ⟨hcc, hvis⟩
          · exact Or.inr ⟨v, hcc, Or.inr ⟨hv, hvis⟩⟩
        have hstep := ih dv0 (changeField h k v dv cc false).1
          (changeField h k v dv cc false).2 hwf2 h3
        rw [Prod.mk.eta] at hstep
        exact ⟨hstep.1.trans hex, hstep.2.1, hstep.2.2⟩

/-- The fold of clearField over every key of a removed document: preserves
the handle set, data well-formedness and the collector invariant, and on
termination the handle contributes to no remaining key (keys outside the
folded list must already avoid it). -/
theorem foldClear_spec (h : String) (S : List String) :
    ∀ (kvs : List (String × List PrecedenceItem)) (dv0 dv : SessionDocumentView)
      (cc : JsObj JsVal),
    dataWF S dv.dataByKey →
    ccInv dv0 dv cc →
    ("_id" ∉ kvs.map Prod.fst) →
    (∀ k pl, objGet dv.dataByKey k = some pl → k ∉ kvs.map Prod.fst →
        h ∉ pl.map PrecedenceItem.subscriptionHandle) →
    ((kvs.foldl (fun acc kv => clearField h kv.1 acc.1 acc.2) (dv, cc)).1.existsIn
        = dv.existsIn) ∧
    dataWF S (kvs.foldl (fun acc kv => clearField h kv.1 acc.1 acc.2) (dv, cc)).1.dataByKey ∧
    ccInv dv0 (kvs.foldl (fun acc kv => clearField h kv.1 acc.1 acc.2) (dv, cc)).1
      (kvs.foldl (fun acc kv => clearField h kv.1 acc.1 acc.2) (dv, cc)).2 ∧
    (∀ k pl, objGet (kvs.foldl (fun acc kv => clearField h kv.1 acc.1 acc.2)
        (dv, cc)).1.dataByKey k = some pl → h ∉ pl.map PrecedenceItem.subscriptionHandle) := by
  intro kvs
  induction kvs with
  | nil =>
    intro dv0 dv cc hwf hinv hnid hcleared
    exact ⟨rfl, hwf, hinv, fun k pl hg => hcleared k pl hg (by simp)⟩
  | cons kv rest ih =>
    intro dv0 dv cc hwf hinv hnid hcleared
    obtain ⟨k, plx⟩ := kv
    simp only [List.map_cons, List.mem_cons] at hnid
    push_neg at hnid
    have hid : k ≠ "_id" := fun he => hnid.1 he.symm
    simp only [List.foldl_cons]
    obtain ⟨hex, hwf2, hother, hk4, hcase⟩ := clearField_spec h k dv cc S hid hwf
    have h3 : ccInv dv0 (clearField h k dv cc).1 (clearField h k dv cc).2 := by
      refine ccInv_preserve dv0 dv _ cc _ k hinv hother ?_
      rcases hcase with ⟨hcc, hvis⟩ | ⟨hcc, hvis⟩ | ⟨w, hw, hcc, hvis⟩
      · exact Or.inl ⟨hcc, hvis⟩
      · exact Or.inr ⟨JsVal.undef, hcc, Or.inl ⟨rfl, hvis⟩⟩
      · exact Or.inr ⟨w, hcc, Or.inr ⟨hw, hvis⟩⟩
    have h4 : ∀ k2 pl, objGet (clearField h k dv cc).1.dataByKey k2 = some pl →
        k2 ∉ rest.map Prod.fst → h ∉ pl.map PrecedenceItem.subscriptionHandle := by
      intro k2 pl hg2 hk2
      by_cases hk2k : k2 = k
      · subst hk2k
        exact hk4 pl hg2
      · rw [hother k2 hk2k] at hg2
        refine hcleared k2 pl hg2 ?_
        simp only [List.map_cons, List.mem_cons]
        push_neg
        exact ⟨hk2k, hk2⟩
    have hstep := ih dv0 (clearField h k dv cc).1 (clearField h k dv cc).2 hwf2 h3 hnid.2 h4
    rw [Prod.mk.eta] at hstep
    exact ⟨hstep.1.trans hex, hstep.2.1, hstep.2.2.1, hstep.2.2.2⟩

theorem dataWF_mono {S S2 : List String} {data : JsObj (List PrecedenceItem)}
    (hsub : ∀ x ∈ S, x ∈ S2) (h : dataWF S data) : dataWF S2 data := by
  obtain ⟨h1, h2, h3⟩ := h
  refine ⟨h1, h2, fun k pl hg => ?_⟩
  obtain ⟨g1, g2, g3, g4⟩ := h3 k pl hg
  exact ⟨g1, g2, fun p hp => hsub _ (g3 p hp), g4⟩

theorem clientSim_changed (c : String) (client : JsObj (JsObj JsVal))
    (view : SessionCollectionView) (id : String) (dv dv2 : SessionDocumentView)
    (cc : JsObj JsVal)
    (hsim : clientSim client view)
    (hdoc : objGet view.documents id = some dv)
    (hccnd : (cc.map Prod.fst).Nodup)
    (hcc : ∀ k, (objGet cc k = none → fieldVisible dv2 k = fieldVisible dv k) ∧
               (objGet cc k = some JsVal.undef → fieldVisible dv2 k = none) ∧
               (∀ v, v ≠ JsVal.undef → objGet cc k = some v → fieldVisible dv2 k = some v)) :
    clientSim ((callbackToMsgs c (.changed id cc)).foldl applyMsgClient client)
      ⟨objSet view.documents id dv2⟩ := by
  obtain ⟨hclnd, hpres, hdocs⟩ := hsim
  obtain ⟨cdoc, hcdoc, hcdocnd, hcdocval⟩ := hdocs id dv hdoc
  have hpres2 : ∀ id2, (objGet (objSet view.documents id dv2) id2).isSome
      ↔ (objGet view.documents id2).isSome := by
    intro id2
    rw [objGet_objSet]
    by_cases hi : id = id2
    · subst hi
      rw [if_pos rfl, hdoc]
      simp
    · rw [if_neg hi]
  have hvisAll : ∀ k, fieldVisible dv2 k =
      (match objGet cc k with
       | none => fieldVisible dv k
       | some JsVal.undef => none
       | some v => some v) := by
    intro k
    obtain ⟨c1, c2, c3⟩ := hcc k
    cases hg : objGet cc k with
    | none => exact c1 hg
    | some v =>
      cases v with
      | undef => exact c2 hg
      | null => exact c3 _ (by simp) hg
      | bool b => exact c3 _ (by simp) hg
      | num n => exact c3 _ (by simp) hg
      | str s => exact c3 _ (by simp) hg
  by_cases hccnil : cc = []
  · subst hccnil
    have hmsgs : callbackToMsgs c (ViewCallback.changed id []) = [] := by
      simp [callbackToMsgs]
    rw [hmsgs]
    simp only [List.foldl_nil]
    refine ⟨hclnd, fun id2 => (hpres id2).trans (hpres2 id2).symm, ?_⟩
    · intro id2 dv3 hg3
      rw [objGet_objSet] at hg3
      by_cases hi : id = id2
      · subst hi
        rw [if_pos rfl] at hg3
        cases hg3
        refine ⟨cdoc, hcdoc, hcdocnd, fun k => ?_⟩
        rw [hcdocval k, hvisAll k]
        rfl
      · rw [if_neg hi] at hg3
        exact hdocs id2 dv3 hg3
  · have hmsgs : callbackToMsgs c (ViewCallback.changed id cc) = [.changed c id cc] := by
      simp [callbackToMsgs, hccnil]
    rw [hmsgs]
    simp only [List.foldl_cons, List.foldl_nil]
    have happly : applyMsgClient client (.changed c id cc) =
        objSet client id (applyChangedFields cdoc cc) := by
      simp only [applyMsgClient, hcdoc]
    rw [happly]
    refine ⟨nodup_map_fst_objSet _ _ _ hclnd, ?_, ?_⟩
    · intro id2
      show (objGet (objSet client id (applyChangedFields cdoc cc)) id2).isSome = true ↔
        (objGet (objSet view.documents id dv2) id2).isSome = true
      rw [objGet_objSet, objGet_objSet]
      by_cases hi : id = id2
      · subst hi
        rw [if_pos rfl, if_pos rfl]
        simp
      · rw [if_neg hi, if_neg hi]
        exact hpres id2
    · intro id2 dv3 hg3
      rw [objGet_objSet] at hg3
      by_cases hi : id = id2
      · subst hi
        rw [if_pos rfl] at hg3
        cases hg3
        refine ⟨applyChangedFields cdoc cc, ?_, applyChangedFields_nodup _ _ hcdocnd, ?_⟩
        · rw [objGet_objSet, if_pos rfl]
        · intro k
          rw [applyChangedFields_get _ _ _ hccnd hcdocnd, hvisAll k]
          cases hg : objGet cc k with
          | none => exact hcdocval k
          | some v => cases v <;> rfl
      · rw [if_neg hi] at hg3
        obtain ⟨cdoc3, hc3, hc3nd, hc3val⟩ := hdocs id2 dv3 hg3
        refine ⟨cdoc3, ?_, hc3nd, hc3val⟩
        rw [objGet_objSet, if_neg hi]
        exact hc3

theorem ccInv_init (dv0 : SessionDocumentView) : ccInv dv0 dv0 [] := by
  refine ⟨List.nodup_nil, fun k => ⟨fun _ => rfl, fun hu => ?_, fun v hv hg => ?_⟩⟩
  · simp [objGet] at hu
  · simp [objGet] at hg

theorem dataWF_nil (S : List String) : dataWF S [] := by
  refine ⟨List.nodup_nil, by simp, fun k pl hg => ?_⟩
  simp [objGet] at hg

theorem viewAdded_sim (c : String) (client : JsObj (JsObj JsVal))
    (view : SessionCollectionView) (h id : String) (fields : JsObj JsVal)
    (hwf : viewWF view) (hsim : clientSim client view)
    (hval : opValid view (.added h id fields)) :
    viewWF (viewAdded view h id fields).1 ∧
    clientSim ((callbackToMsgs c (viewAdded view h id fields).2).foldl applyMsgClient client)
      (viewAdded view h id fields).1 := by
  obtain ⟨hnotin, hfnd, hfval⟩ := hval
  obtain ⟨hvnd, hvdocs⟩ := hwf
  obtain ⟨hclnd, hpres, hdocs⟩ := hsim
  cases hdoc : objGet view.documents id with
  | none =>
    have hres : viewAdded view h id fields =
        (⟨objSet view.documents id
            (fields.foldl (fun acc kv => changeField h kv.1 kv.2 acc.1 acc.2 true)
              (⟨setAdd emptyDocView.existsIn h, emptyDocView.dataByKey⟩, [])).1⟩,
         .added id (fields.foldl (fun acc kv => changeField h kv.1 kv.2 acc.1 acc.2 true)
              (⟨setAdd emptyDocView.existsIn h, emptyDocView.dataByKey⟩, [])).2) := by
      simp only [viewAdded, hdoc, Option.isNone_none, Option.getD_none, if_true]
    have hh : h ∈ setAdd emptyDocView.existsIn h := (mem_setAdd _ _ _).mpr (Or.inr rfl)
    obtain ⟨rex, rwf, rinv, rval⟩ := foldAdd_spec h (setAdd emptyDocView.existsIn h) hh
      fields ⟨setAdd emptyDocView.existsIn h, emptyDocView.dataByKey⟩
      ⟨setAdd emptyDocView.existsIn h, emptyDocView.dataByKey⟩ [] (dataWF_nil _) hfnd hfval
      (fun k pl _ hg => by simp [objGet, emptyDocView] at hg)
      (ccInv_init _) (by simp)
    rw [hres]
    constructor
    · refine ⟨nodup_map_fst_objSet _ _ _ hvnd, ?_⟩
      intro id2 dv2 hg2
      have hg2b : objGet (objSet view.documents id
          (fields.foldl (fun acc kv => changeField h kv.1 kv.2 acc.1 acc.2 true)
            (⟨setAdd emptyDocView.existsIn h, emptyDocView.dataByKey⟩, [])).1) id2
          = some dv2 := hg2
      rw [objGet_objSet] at hg2b
      by_cases hi : id = id2
      · rw [if_pos hi] at hg2b
        cases hg2b
        refine ⟨by rw [rex]; exact setAdd_ne_nil emptyDocView.existsIn h, ?_, ?_⟩
        · rw [rex]
          exact setAdd_nodup emptyDocView.existsIn h List.nodup_nil
        · rw [rex]
          exact rwf
      · rw [if_neg hi] at hg2b
        exact hvdocs id2 dv2 hg2b
    · have hmsgs : callbackToMsgs c (ViewCallback.added id
          (fields.foldl (fun acc kv => changeField h kv.1 kv.2 acc.1 acc.2 true)
            (⟨setAdd emptyDocView.existsIn h, emptyDocView.dataByKey⟩, [])).2) =
          [.added c id (fields.foldl (fun acc kv => changeField h kv.1 kv.2 acc.1 acc.2 true)
            (⟨setAdd emptyDocView.existsIn h, emptyDocView.dataByKey⟩, [])).2] := rfl
      rw [hmsgs]
      simp only [List.foldl_cons, List.foldl_nil]
      show clientSim (objSet client id _) _
      obtain ⟨rccnd, rcc⟩ := rinv
      refine ⟨nodup_map_fst_objSet _ _ _ hclnd, ?_, ?_⟩
      · intro id2
        show (objGet (objSet client id _) id2).isSome = true ↔
          (objGet (objSet view.documents id _) id2).isSome = true
        rw [objGet_objSet, objGet_objSet]
        by_cases hi : id = id2
        · rw [if_pos hi, if_pos hi]
          simp
        · rw [if_neg hi, if_neg hi]
          exact hpres id2
      · intro id2 dv2 hg2
        have hg2b : objGet (objSet view.documents id
            (fields.foldl (fun acc kv => changeField h kv.1 kv.2 acc.1 acc.2 true)
              (⟨setAdd emptyDocView.existsIn h, emptyDocView.dataByKey⟩, [])).1) id2
            = some dv2 := hg2
        rw [objGet_objSet] at hg2b
        by_cases hi : id = id2
        · rw [if_pos hi] at hg2b
          cases hg2b
          refine ⟨_, ?_, rccnd, ?_⟩
          · rw [objGet_objSet, if_pos hi]
          · intro k
            cases hg : objGet (fields.foldl
                (fun acc kv => changeField h kv.1 kv.2 acc.1 acc.2 true)
                (⟨setAdd emptyDocView.existsIn h, emptyDocView.dataByKey⟩, [])).2 k with
            | none =>
              rw [(rcc k).1 hg]
              rfl
            | some v =>
              have hvne : v ≠ JsVal.undef := by
                intro he
                subst he
                exact rval _ (objGet_mem hg) rfl
              rw [(rcc k).2.2 v hvne hg]
        · rw [if_neg hi] at hg2b
          obtain ⟨cdoc3, hc3, hc3nd, hc3val⟩ := hdocs id2 dv2 hg2b
          refine ⟨cdoc3, ?_, hc3nd, hc3val⟩
          rw [objGet_objSet, if_neg hi]
          exact hc3
  | some dv =>
    have hndv : h ∉ dv.existsIn := hnotin dv hdoc
    obtain ⟨hdvne, hdvnd, hdvdata⟩ := hvdocs id dv hdoc
    have hres : viewAdded view h id fields =
        (⟨objSet view.documents id
            (fields.foldl (fun acc kv => changeField h kv.1 kv.2 acc.1 acc.2 true)
              (⟨setAdd dv.existsIn h, dv.dataByKey⟩, [])).1⟩,
         .changed id (fields.foldl (fun acc kv => changeField h kv.1 kv.2 acc.1 acc.2 true)
              (⟨setAdd dv.existsIn h, dv.dataByKey⟩, [])).2) := by
      simp only [viewAdded, hdoc, Option.isNone_some, Option.getD_some, if_false,
        Bool.false_eq_true]
    have hh : h ∈ setAdd dv.existsIn h := (mem_setAdd _ _ _).mpr (Or.inr rfl)
    have hmono : dataWF (setAdd dv.existsIn h) dv.dataByKey :=
      dataWF_mono (fun x hx => (mem_setAdd _ _ _).mpr (Or.inl hx)) hdvdata
    obtain ⟨rex, rwf, rinv, rval⟩ := foldAdd_spec h (setAdd dv.existsIn h) hh
      fields ⟨setAdd dv.existsIn h, dv.dataByKey⟩
      ⟨setAdd dv.existsIn h, dv.dataByKey⟩ [] hmono hfnd hfval
      (fun k pl _ hg => by
        intro hmem
        obtain ⟨_, _, g3, _⟩ := hdvdata.2.2 k pl hg
        obtain ⟨p, hp, hph⟩ := List.mem_map.mp hmem
        exact hndv (hph ▸ g3 p hp))
      (ccInv_init _) (by simp)
    rw [hres]
    constructor
    · refine ⟨nodup_map_fst_objSet _ _ _ hvnd, ?_⟩
      intro id2 dv2 hg2
      have hg2b : objGet (objSet view.documents id
          (fields.foldl (fun acc kv => changeField h kv.1 kv.2 acc.1 acc.2 true)
            (⟨setAdd dv.existsIn h, dv.dataByKey⟩, [])).1) id2 = some dv2 := hg2
      rw [objGet_objSet] at hg2b
      by_cases hi : id = id2
      · rw [if_pos hi] at hg2b
        cases hg2b
        refine ⟨by rw [rex]; exact setAdd_ne_nil dv.existsIn h, ?_, ?_⟩
        · rw [rex]
          exact setAdd_nodup dv.existsIn h hdvnd
        · rw [rex]
          exact rwf
      · rw [if_neg hi] at hg2b
        exact hvdocs id2 dv2 hg2b
    · obtain ⟨rccnd, rcc⟩ := rinv
      exact clientSim_changed c client view id dv _ _ ⟨hclnd, hpres, hdocs⟩ hdoc rccnd
        (fun k => rcc k)

theorem viewChanged_sim (c : String) (client : JsObj (JsObj JsVal))
    (view view2 : SessionCollectionView) (h id : String) (changed : JsObj JsVal)
    (cb : ViewCallback)
    (hwf : viewWF view) (hsim : clientSim client view)
    (hval : opValid view (.changed h id changed))
    (hstep : viewChanged view h id changed = .ok (view2, cb)) :
    viewWF view2 ∧
    clientSim ((callbackToMsgs c cb).foldl applyMsgClient client) view2 := by
  obtain ⟨⟨dv, hdoc, hmem⟩, hfnd⟩ := hval
  obtain ⟨hvnd, hvdocs⟩ := hwf
  obtain ⟨hdvne, hdvnd, hdvdata⟩ := hvdocs id dv hdoc
  have hres : viewChanged view h id changed =
      .ok (⟨objSet view.documents id
            (changed.foldl (fun acc kv => if kv.2 = JsVal.undef
                then clearField h kv.1 acc.1 acc.2
                else changeField h kv.1 kv.2 acc.1 acc.2 false) (dv, [])).1⟩,
           .changed id (changed.foldl (fun acc kv => if kv.2 = JsVal.undef
                then clearField h kv.1 acc.1 acc.2
                else changeField h kv.1 kv.2 acc.1 acc.2 false) (dv, [])).2) := by
    simp only [viewChanged, hdoc]
  rw [hres] at hstep
  obtain ⟨hv2, hcb⟩ : _ ∧ _ := by
    have := Except.ok.inj hstep
    exact ⟨congrArg Prod.fst this, congrArg Prod.snd this⟩
  obtain ⟨rex, rwf, rinv⟩ := foldChange_spec h dv.existsIn hmem changed dv dv []
    hdvdata (ccInv_init dv)
  obtain ⟨rccnd, rcc⟩ := rinv
  subst hv2
  subst hcb
  constructor
  · refine ⟨nodup_map_fst_objSet _ _ _ hvnd, ?_⟩
    intro id2 dv2 hg2
    have hg2b : objGet (objSet view.documents id
        (changed.foldl (fun acc kv => if kv.2 = JsVal.undef
            then clearField h kv.1 acc.1 acc.2
            else changeField h kv.1 kv.2 acc.1 acc.2 false) (dv, [])).1) id2
        = some dv2 := hg2
    rw [objGet_objSet] at hg2b
    by_cases hi : id = id2
    · rw [if_pos hi] at hg2b
      cases hg2b
      refine ⟨by rw [rex]; exact hdvne, by rw [rex]; exact hdvnd, ?_⟩
      rw [rex]
      exact rwf
    · rw [if_neg hi] at hg2b
      exact hvdocs id2 dv2 hg2b
  · exact clientSim_changed c client view id dv _ _ hsim hdoc rccnd (fun k => rcc k)

theorem viewRemoved_sim (c : String) (client : JsObj (JsObj JsVal))
    (view view2 : SessionCollectionView) (h id : String) (cb : ViewCallback)
    (hwf : viewWF view) (hsim : clientSim client view)
    (hval : opValid view (.removed h id))
    (hstep : viewRemoved view h id = .ok (view2, cb)) :
    viewWF view2 ∧
    clientSim ((callbackToMsgs c cb).foldl applyMsgClient client) view2 := by
  obtain ⟨dv, hdoc, hmem⟩ := hval
  obtain ⟨hvnd, hvdocs⟩ := hwf
  obtain ⟨hclnd, hpres, hdocs⟩ := hsim
  obtain ⟨hdvne, hdvnd, hdvdata⟩ := hvdocs id dv hdoc
  by_cases hemp : setDelete dv.existsIn h = []
  · have hres : viewRemoved view h id =
        .ok (⟨objDelete view.documents id⟩, .removed id) := by
      simp only [viewRemoved, hdoc, hemp, eq_self_iff_true, if_true]
    rw [hres] at hstep
    obtain ⟨hv2, hcb⟩ : _ ∧ _ := by
      have := Except.ok.inj hstep
      exact ⟨congrArg Prod.fst this, congrArg Prod.snd this⟩
    subst hv2
    subst hcb
    constructor
    · refine ⟨nodup_map_fst_objDelete _ _ hvnd, ?_⟩
      intro id2 dv2 hg2
      have hg2b : objGet (objDelete view.documents id) id2 = some dv2 := hg2
      rw [objGet_objDelete _ _ _ hvnd] at hg2b
      by_cases hi : id = id2
      · rw [if_pos hi] at hg2b
        cases hg2b
      · rw [if_neg hi] at hg2b
        exact hvdocs id2 dv2 hg2b
    · show clientSim (objDelete client id) ⟨objDelete view.documents id⟩
      refine ⟨nodup_map_fst_objDelete _ _ hclnd, ?_, ?_⟩
      · intro id2
        show (objGet (objDelete client id) id2).isSome = true ↔
          (objGet (objDelete view.documents id) id2).isSome = true
        rw [objGet_objDelete _ _ _ hclnd, objGet_objDelete _ _ _ hvnd]
        by_cases hi : id = id2
        · rw [if_pos hi, if_pos hi]
          exact Iff.rfl
        · rw [if_neg hi, if_neg hi]
          exact hpres id2
      · intro id2 dv2 hg2
        have hg2b : objGet (objDelete view.documents id) id2 = some dv2 := hg2
        rw [objGet_objDelete _ _ _ hvnd] at hg2b
        by_cases hi : id = id2
        · rw [if_pos hi] at hg2b
          cases hg2b
        · rw [if_neg hi] at hg2b
          obtain ⟨cdoc, hc, hcnd, hcval⟩ := hdocs id2 dv2 hg2b
          refine ⟨cdoc, ?_, hcnd, hcval⟩
          rw [objGet_objDelete _ _ _ hclnd, if_neg hi]
          exact hc
  · have hres : viewRemoved view h id =
        .ok (⟨objSet view.documents id
              (dv.dataByKey.foldl (fun acc kv => clearField h kv.1 acc.1 acc.2)
                (⟨setDelete dv.existsIn h, dv.dataByKey⟩, [])).1⟩,
             .changed id (dv.dataByKey.foldl (fun acc kv => clearField h kv.1 acc.1 acc.2)
                (⟨setDelete dv.existsIn h, dv.dataByKey⟩, [])).2) := by
      simp only [viewRemoved, hdoc, hemp, if_false]
    rw [hres] at hstep
    obtain ⟨hv2, hcb⟩ : _ ∧ _ := by
      have := Except.ok.inj hstep
      exact ⟨congrArg Prod.fst this, congrArg Prod.snd this⟩
    subst hv2
    subst hcb
    have hwfstart : dataWF dv.existsIn
        (⟨setDelete dv.existsIn h, dv.dataByKey⟩ : SessionDocumentView).dataByKey := hdvdata
    obtain ⟨rex, rwf, rinv, rclear⟩ := foldClear_spec h dv.existsIn dv.dataByKey
      ⟨setDelete dv.existsIn h, dv.dataByKey⟩
      ⟨setDelete dv.existsIn h, dv.dataByKey⟩ [] hwfstart (ccInv_init _)
      hdvdata.2.1
      (fun k pl hg hk => absurd (List.mem_map.mpr ⟨(k, pl), objGet_mem hg, rfl⟩) hk)
    obtain ⟨rccnd, rcc⟩ := rinv
    constructor
    · refine ⟨nodup_map_fst_objSet _ _ _ hvnd, ?_⟩
      intro id2 dv2 hg2
      have hg2b : objGet (objSet view.documents id
          (dv.dataByKey.foldl (fun acc kv => clearField h kv.1 acc.1 acc.2)
            (⟨setDelete dv.existsIn h, dv.dataByKey⟩, [])).1) id2 = some dv2 := hg2
      rw [objGet_objSet] at hg2b
      by_cases hi : id = id2
      · rw [if_pos hi] at hg2b
        cases hg2b
        refine ⟨by rw [rex]; exact hemp, ?_, ?_⟩
        · rw [rex]
          exact setDelete_nodup _ _ hdvnd
        · rw [rex]
          obtain ⟨w1, w2, w3⟩ := rwf
          refine ⟨w1, w2, fun k pl hg => ?_⟩
          obtain ⟨g1, g2, g3, g4⟩ := w3 k pl hg
          refine ⟨g1, g2, fun p hp => ?_, g4⟩
          refine (mem_setDelete _ _ _).mpr ⟨g3 p hp, fun he => ?_⟩
          exact rclear k pl hg (List.mem_map.mpr ⟨p, hp, he⟩)
      · rw [if_neg hi] at hg2b
        exact hvdocs id2 dv2 hg2b
    · exact clientSim_changed c client view id dv _ _ ⟨hclnd, hpres, hdocs⟩ hdoc rccnd
        (fun k => rcc k)

theorem applyMergeOp_sim (c : String) (client : JsObj (JsObj JsVal))
    (view view2 : SessionCollectionView) (op : MergeOp) (cb : ViewCallback)
    (hwf : viewWF view) (hsim : clientSim client view) (hval : opValid view op)
    (hstep : applyMergeOp view op = .ok (view2, cb)) :
    viewWF view2 ∧
    clientSim ((callbackToMsgs c cb).foldl applyMsgClient client) view2 := by
  cases op with
  | added h id fields =>
    have hstep2 : (viewAdded view h id fields).1 = view2 ∧
        (viewAdded view h id fields).2 = cb := by
      have := Except.ok.inj hstep
      exact ⟨congrArg Prod.fst this, congrArg Prod.snd this⟩
    obtain ⟨h1, h2⟩ := hstep2
    subst h1
    subst h2
    exact viewAdded_sim c client view h id fields hwf hsim hval
  | changed h id fields => exact viewChanged_sim c client view view2 h id fields cb hwf hsim hval hstep
  | removed h id => exact viewRemoved_sim c client view view2 h id cb hwf hsim hval hstep

theorem runMergeOps_sim (c : String) :
    ∀ (ops : List MergeOp) (view : SessionCollectionView) (msgs0 : List Msg),
    viewWF view → ValidFrom view ops →
    clientSim (msgs0.foldl applyMsgClient []) view →
    ∀ view2 msgs2, runMergeOps c view msgs0 ops = .ok (view2, msgs2) →
    viewWF view2 ∧ clientSim (msgs2.foldl applyMsgClient []) view2 := by
  intro ops
  induction ops with
  | nil =>
    intro view msgs0 hwf hvalid hsim view2 msgs2 hrun
    obtain ⟨h1, h2⟩ : _ ∧ _ := by
      have := Except.ok.inj hrun
      exact ⟨congrArg Prod.fst this, congrArg Prod.snd this⟩
    subst h1
    subst h2
    exact ⟨hwf, hsim⟩
  | cons op ops ih =>
    intro view msgs0 hwf hvalid hsim view2 msgs2 hrun
    obtain ⟨hval, hrest⟩ := hvalid
    cases hstep : applyMergeOp view op with
    | error e =>
      rw [runMergeOps, hstep] at hrun
      cases hrun
    | ok p =>
      obtain ⟨view1, cb⟩ := p
      rw [runMergeOps, hstep] at hrun
      obtain ⟨hwf1, hsim1⟩ := applyMergeOp_sim c _ view view1 op cb hwf hsim hval hstep
      have hsim1b : clientSim ((msgs0 ++ callbackToMsgs c cb).foldl applyMsgClient []) view1 := by
        rw [List.foldl_append]
        exact hsim1
      exact ih view1 (msgs0 ++ callbackToMsgs c cb) hwf1 (hrest view1 cb hstep) hsim1b
        view2 msgs2 hrun

theorem okPairInj {E A B : Type} {p : A × B} {a : A} {b : B}
    (h : (Except.ok p : Except E (A × B)) = .ok (a, b)) : p.1 = a ∧ p.2 = b := by
  have h2 := Except.ok.inj h
  exact ⟨congrArg Prod.fst h2, congrArg Prod.snd h2⟩

theorem validFrom_precedenceScenario : ValidFrom emptyCollectionView precedenceScenario := by
  refine ⟨⟨fun dv hg => ?_, by decide, by decide⟩, fun v1 cb1 hs1 => ?_⟩
  · simp [emptyCollectionView, objGet] at hg
  obtain ⟨e1, _⟩ := okPairInj hs1
  subst e1
  refine ⟨⟨fun dv hg => ?_, by decide, by decide⟩, fun v2 cb2 hs2 => ?_⟩
  · injection hg with h
    subst h
    decide
  obtain ⟨e2, _⟩ := okPairInj hs2
  subst e2
  refine ⟨⟨_, rfl, by decide⟩, fun v3 cb3 hs3 => ?_⟩
  obtain ⟨e3, _⟩ := okPairInj hs3
  subst e3
  refine ⟨⟨_, rfl, by decide⟩, fun v4 cb4 hs4 => ?_⟩
  exact trivial

/-- C4: after any valid sequence of merge-box added/changed/removed operations
run from an empty collection view, every client-visible field value (derived
from the sent data messages) equals the head of that field's precedence
list, _id is never stored in the field map, every surviving document entry
has a nonempty existsIn set, and the client holds a document exactly when
the view does (the entry is dropped, with a removed delta, exactly when
existsIn empties); and in the two-subscription precedence scenario the
client sees A's value 1 while A remains, switches to B's value 2 when A
drops the document, and receives removed when both have dropped it. -/
theorem merge_box_precedence_invariants (c : String) (ops : List MergeOp)
    (view2 : SessionCollectionView) (msgs : List Msg)
    (hvalid : ValidFrom emptyCollectionView ops)
    (hrun : runMergeOps c emptyCollectionView [] ops = .ok (view2, msgs)) :
    (∀ id dv, objGet view2.documents id = some dv →
      ∃ cdoc, objGet (clientDocs msgs) id = some cdoc ∧
        ∀ k, objGet cdoc k =
          (objGet dv.dataByKey k).map (fun pl => (pl.headD noItem).value)) ∧
    (∀ id dv, objGet view2.documents id = some dv → "_id" ∉ dv.dataByKey.map Prod.fst) ∧
    (∀ id dv, objGet view2.documents id = some dv → dv.existsIn ≠ []) ∧
    (∀ id, (objGet (clientDocs msgs) id).isSome ↔ (objGet view2.documents id).isSome) ∧
    runMergeOps c emptyCollectionView [] precedenceScenario =
      .ok (emptyCollectionView,
        [Msg.added c "x" [("f", JsVal.num 1)],
         Msg.changed c "x" [("f", JsVal.num 2)],
         Msg.removed c "x"]) := by
  have hwf0 : viewWF emptyCollectionView :=
    ⟨List.nodup_nil, fun id dv hg => by simp [emptyCollectionView, objGet] at hg⟩
  have hsim0 : clientSim (([] : List Msg).foldl applyMsgClient []) emptyCollectionView := by
    refine ⟨List.nodup_nil, fun id => by simp [emptyCollectionView, objGet],
      fun id dv hg => ?_⟩
    simp [emptyCollectionView, objGet] at hg
  obtain ⟨hwf2, hsim2⟩ :=
    runMergeOps_sim c ops emptyCollectionView [] hwf0 hvalid hsim0 view2 msgs hrun
  obtain ⟨hclnd, hpres, hdocs⟩ := hsim2
  refine ⟨?_, ?_, ?_, hpres, rfl⟩
  · intro id dv hg
    obtain ⟨cdoc, hc, hcnd, hcval⟩ := hdocs id dv hg
    exact ⟨cdoc, hc, fun k => hcval k⟩
  · intro id dv hg
    exact (hwf2.2 id dv hg).2.2.2.1
  · intro id dv hg
    exact (hwf2.2 id dv hg).1

theorem merge_box_precedence_invariants_witness :
    runMergeOps "fruit" emptyCollectionView [] precedenceScenario =
      .ok (emptyCollectionView,
        [Msg.added "fruit" "x" [("f", JsVal.num 1)],
         Msg.changed "fruit" "x" [("f", JsVal.num 2)],
         Msg.removed "fruit" "x"]) ∧
    ∀ id, (objGet (clientDocs
        [Msg.added "fruit" "x" [("f", JsVal.num 1)],
         Msg.changed "fruit" "x" [("f", JsVal.num 2)],
         Msg.removed "fruit" "x"]) id).isSome ↔
      (objGet emptyCollectionView.documents id).isSome :=
  ⟨rfl,
   (merge_box_precedence_invariants "fruit" precedenceScenario emptyCollectionView
      [Msg.added "fruit" "x" [("f", JsVal.num 1)],
       Msg.changed "fruit" "x" [("f", JsVal.num 2)],
       Msg.removed "fruit" "x"]
      validFrom_precedenceScenario rfl).2.2.2.1⟩

/-- C8 counterexample: in the overlapping-subscription scenario the merge box
reports B's add through the changed callback with an empty fields object,
but DDPSession.sendChanged returns before sending when the fields object is
empty, so NO changed message reaches the client: the only data message of
the whole scenario is the original added. -/
theorem overlap_empty_changed_counterexample :
    runMergeOps "fruit" emptyCollectionView [] overlapScenario =
      .ok (⟨[("x", ⟨["A", "B"],
            [("q", [⟨"A", JsVal.num 5⟩]),
             ("r", [⟨"A", JsVal.num 6⟩, ⟨"B", JsVal.num 6⟩])]⟩)]⟩,
        [Msg.added "fruit" "x" [("q", JsVal.num 5), ("r", JsVal.num 6)]]) ∧
    Msg.changed "fruit" "x" [] ∉
      [Msg.added "fruit" "x" [("q", JsVal.num 5), ("r", JsVal.num 6)]] :=
  ⟨rfl, by decide⟩

/-- C8 amended: B's overlapping add produces a changed callback with an empty
fields object at the merge box; the session suppresses it (sendChanged sends
nothing for empty fields), so the client receives no message for it and its
state for document x remains q 5, r 6. -/
theorem overlap_empty_changed_amended :
    (viewAdded ⟨[("x", ⟨["A"],
          [("q", [⟨"A", JsVal.num 5⟩]), ("r", [⟨"A", JsVal.num 6⟩])]⟩)]⟩
        "B" "x" [("r", JsVal.num 6)]).2 = .changed "x" [] ∧
    callbackToMsgs "fruit" (.changed "x" ([] : JsObj JsVal)) = [] ∧
    objGet (clientDocs [Msg.added "fruit" "x"
        [("q", JsVal.num 5), ("r", JsVal.num 6)]]) "x" =
      some [("q", JsVal.num 5), ("r", JsVal.num 6)] :=
  ⟨rfl, rfl, rfl⟩

/-! ### Theorems on the synchronous task queue -/

theorem qchk_append (l1 l2 : List QLog) :
    ∀ cur next exp, qchk (l1 ++ l2) cur next exp
      = (qchk l1 cur next exp).bind (fun p => qchk l2 p.1 p.2.1 p.2.2) := by
  induction l1 with
  | nil => intro cur next exp; rfl
  | cons e l1 ih =>
    intro cur next exp
    cases exp with
    | some x =>
      by_cases he : e = x
      · simp [qchk, he, ih]
      · simp [qchk, he]
    | none =>
      cases e with
      | started i =>
        by_cases hc : cur = none ∧ i = next
        · simp [qchk, hc, ih]
        · simp [qchk, hc]
      | finished i out b =>
        by_cases hc : cur = some i
        · simp [qchk, hc, ih]
        · simp [qchk, hc]
      | resolved i v => simp [qchk]
      | rejected i e2 => simp [qchk]

theorem qInv_init : qInv qInit :=
  ⟨Or.inl rfl, rfl, rfl, rfl⟩

theorem range1_concat (a n : Nat) :
    List.range' a (n + 1) = List.range' a n ++ [a + n] := by
  induction n generalizing a with
  | zero => simp [List.range']
  | succ n ih =>
    show a :: List.range' (a + 1) (n + 1) = a :: (List.range' (a + 1) n ++ [a + (n + 1)])
    rw [ih]
    have h : a + 1 + n = a + (n + 1) := by omega
    rw [h]

theorem qInv_step (s s2 : QState) (e : QEvent) (hinv : qInv s)
    (hstep : qstep s e = some s2) : qInv s2 := by
  obtain ⟨h1, h2, h3, h4⟩ := hinv
  cases e with
  | enqueue b =>
    injection hstep with h
    subst h
    refine ⟨?_, ?_, ?_, h4⟩
    · show s.running = none ∨ (if qflag s = true then s.runScheduled else true) = false
      by_cases hf : qflag s = true
      · rw [if_pos hf]
        exact h1
      · refine Or.inl ?_
        unfold qflag at hf
        cases hr : s.running with
        | none => rfl
        | some p => rw [hr] at hf; simp at hf
    · show (s.pending ++ [(s.nEnqueued, b)]).map Prod.fst
        = List.range' s.started (s.pending ++ [(s.nEnqueued, b)]).length
      rw [List.map_append, List.length_append, h2]
      simp only [List.map_cons, List.map_nil, List.length_cons, List.length_nil,
        Nat.zero_add]
      rw [range1_concat, h3]
    · show s.nEnqueued + 1 = s.started + (s.pending ++ [(s.nEnqueued, b)]).length
      rw [List.length_append]
      simp only [List.length_cons, List.length_nil]
      omega
  | runStart =>
    by_cases hrs : s.runScheduled = true
    · simp only [qstep] at hstep
      rw [if_pos hrs] at hstep
      have hrn : s.running = none := h1.resolve_right (by simp [hrs])
      cases hp : s.pending with
      | nil =>
        rw [hp] at hstep h3
        injection hstep with h
        subst h
        rw [hrn] at h4
        refine ⟨Or.inr rfl, rfl, ?_, ?_⟩
        · show s.nEnqueued = s.started + ([] : List (Nat × Bool)).length
          simpa using h3
        · show qchk s.log none 0 none = some (s.running.map Prod.fst, s.started, none)
          rw [hrn]
          exact h4
      | cons p rest =>
        obtain ⟨i, b⟩ := p
        rw [hp] at hstep
        injection hstep with h
        subst h
        rw [hp] at h2 h3
        simp only [List.map_cons, List.length_cons] at h2 h3
        rw [List.range'] at h2
        obtain ⟨hi, hrest⟩ := List.cons_eq_cons.mp h2
        subst hi
        refine ⟨Or.inr rfl, ?_, ?_, ?_⟩
        · show rest.map Prod.fst = List.range' (s.started + 1) rest.length
          exact hrest
        · show s.nEnqueued = s.started + 1 + rest.length
          omega
        · show qchk (s.log ++ [QLog.started s.started]) none 0 none
            = some (some s.started, s.started + 1, none)
          rw [qchk_append]
          rw [hrn] at h4
          rw [h4]
          simp [qchk]
    · simp only [qstep] at hstep
      rw [if_neg hrs] at hstep
      cases hstep
  | taskReturn v =>
    cases hr : s.running with
    | none =>
      simp only [qstep, hr] at hstep
      exact Option.noConfusion hstep
    | some p =>
      obtain ⟨i, b⟩ := p
      simp only [qstep, hr] at hstep
      injection hstep with h
      subst h
      rw [hr] at h4
      refine ⟨Or.inl rfl, h2, h3, ?_⟩
      show qchk (s.log ++ [QLog.finished i none b] ++
          (if b then [QLog.resolved i JsVal.undef] else [])) none 0 none
        = some (none, s.started, none)
      rw [qchk_append, qchk_append, h4]
      cases b <;> simp [qchk, settleLog]
  | taskThrow e2 =>
    cases hr : s.running with
    | none =>
      simp only [qstep, hr] at hstep
      exact Option.noConfusion hstep
    | some p =>
      obtain ⟨i, b⟩ := p
      simp only [qstep, hr] at hstep
      injection hstep with h
      subst h
      rw [hr] at h4
      refine ⟨Or.inl rfl, h2, h3, ?_⟩
      show qchk (s.log ++ [QLog.finished i (some e2) b] ++
          (if b then [QLog.rejected i e2] else [])) none 0 none
        = some (none, s.started, none)
      rw [qchk_append, qchk_append, h4]
      cases b <;> simp [qchk, settleLog]

theorem runQEvents_inv : ∀ (evs : List QEvent) (s s2 : QState),
    qInv s → runQEvents s evs = some s2 → qInv s2 := by
  intro evs
  induction evs with
  | nil =>
    intro s s2 hi hr
    injection hr with h
    subst h
    exact hi
  | cons e evs ih =>
    intro s s2 hi hr
    cases hq : qstep s e with
    | none => rw [runQEvents, hq] at hr; cases hr
    | some s1 =>
      rw [runQEvents, hq] at hr
      exact ih s1 s2 (qInv_step s s1 e hi hq) hr

theorem qchk_resolved_undef :
    ∀ (l : List QLog) (cur : Option Nat) (next : Nat) (exp : Option QLog),
    (∀ j v, exp = some (QLog.resolved j v) → v = JsVal.undef) →
    (qchk l cur next exp).isSome = true →
    ∀ i v, QLog.resolved i v ∈ l → v = JsVal.undef := by
  intro l
  induction l with
  | nil => intro cur next exp hexp hok i v hm; cases hm
  | cons e rest ih =>
    intro cur next exp hexp hok i v hm
    cases exp with
    | some x =>
      by_cases he : e = x
      · subst he
        simp only [qchk, eq_self_iff_true, if_true] at hok
        rcases List.mem_cons.mp hm with hm1 | hm2
        · subst hm1
          exact hexp i v rfl
        · exact ih cur next none (fun j v2 h => by cases h) hok i v hm2
      · simp only [qchk] at hok
        rw [if_neg he] at hok
        cases hok
    | none =>
      cases e with
      | started j =>
        by_cases hc : cur = none ∧ j = next
        · simp only [qchk] at hok
          rw [if_pos hc] at hok
          rcases List.mem_cons.mp hm with hm1 | hm2
          · cases hm1
          · exact ih (some j) (next + 1) none (fun j2 v2 h => by cases h) hok i v hm2
        · simp only [qchk] at hok
          rw [if_neg hc] at hok
          cases hok
      | finished j out b =>
        by_cases hc : cur = some j
        · simp only [qchk] at hok
          rw [if_pos hc] at hok
          rcases List.mem_cons.mp hm with hm1 | hm2
          · cases hm1
          · refine ih none next _ ?_ hok i v hm2
            intro j2 v2 h
            cases b with
            | false => cases h
            | true =>
              cases out with
              | none =>
                simp only [if_true] at h
                injection h with h2
                cases h2
                rfl
              | some e2 =>
                simp only [if_true] at h
                injection h with h2
                cases h2
        · simp only [qchk] at hok
          rw [if_neg hc] at hok
          cases hok
      | resolved j v2 =>
        simp only [qchk] at hok
        exact Bool.noConfusion hok
      | rejected j e2 =>
        simp only [qchk] at hok
        exact Bool.noConfusion hok

theorem qchk_startedIds :
    ∀ (l : List QLog) (cur : Option Nat) (next : Nat) (exp : Option QLog)
      (cur2 : Option Nat) (next2 : Nat) (exp2 : Option QLog),
    qchk l cur next exp = some (cur2, next2, exp2) →
    (∀ i, exp ≠ some (QLog.started i)) →
    startedIds l = List.range' next (next2 - next) ∧ next ≤ next2 := by
  intro l
  induction l with
  | nil =>
    intro cur next exp cur2 next2 exp2 hok hexp
    injection hok with h
    have hn : next = next2 := congrArg (fun p => p.2.1) h
    constructor
    · rw [← hn, Nat.sub_self]
      rfl
    · omega
  | cons e rest ih =>
    intro cur next exp cur2 next2 exp2 hok hexp
    cases exp with
    | some x =>
      by_cases he : e = x
      · subst he
        simp only [qchk, eq_self_iff_true, if_true] at hok
        obtain ⟨hrest, hle⟩ := ih cur next none cur2 next2 exp2 hok (fun i h => by cases h)
        have hnotst : ∀ i, e ≠ QLog.started i := fun i hcontra => hexp i (by rw [← hcontra])
        refine ⟨?_, hle⟩
        cases e with
        | started i => exact absurd rfl (hnotst i)
        | finished i out b => simpa [startedIds] using hrest
        | resolved i v => simpa [startedIds] using hrest
        | rejected i e2 => simpa [startedIds] using hrest
      · simp only [qchk] at hok
        rw [if_neg he] at hok
        cases hok
    | none =>
      cases e with
      | started j =>
        by_cases hc : cur = none ∧ j = next
        · simp only [qchk] at hok
          rw [if_pos hc] at hok
          obtain ⟨hrest, hle⟩ := ih (some j) (next + 1) none cur2 next2 exp2 hok
            (fun i h => by cases h)
          obtain ⟨-, hj⟩ := hc
          subst hj
          constructor
          · show startedIds (QLog.started j :: rest) = List.range' j (next2 - j)
            have hd : next2 - j = (next2 - (j + 1)) + 1 := by omega
            rw [hd, List.range']
            simp only [startedIds, List.filterMap_cons] at hrest ⊢
            rw [hrest]
          · omega
        · simp only [qchk] at hok
          rw [if_neg hc] at hok
          cases hok
      | finished j out b =>
        by_cases hc : cur = some j
        · simp only [qchk] at hok
          rw [if_pos hc] at hok
          have hexp2 : ∀ i, (if b then some (settleLog j out) else none)
              ≠ some (QLog.started i) := by
            intro i h
            cases b with
            | false => cases h
            | true =>
              cases out with
              | none => simp only [if_true] at h; injection h with h2; cases h2
              | some e2 => simp only [if_true] at h; injection h with h2; cases h2
          obtain ⟨hrest, hle⟩ := ih none next _ cur2 next2 exp2 hok hexp2
          exact ⟨by simpa [startedIds] using hrest, hle⟩
        · simp only [qchk] at hok
          rw [if_neg hc] at hok
          cases hok
      | resolved j v =>
        simp only [qchk] at hok
        exact Option.noConfusion hok
      | rejected j e2 =>
        simp only [qchk] at hok
        exact Option.noConfusion hok

/-- C6 counterexample: a runTask task that completes normally with the value
42 has its promise resolved with undefined, not with 42 — _run invokes
taskHandle.runTaskResolve() with no argument, discarding the task result. -/
theorem queue_result_counterexample :
    runQEvents qInit [QEvent.enqueue true, QEvent.runStart,
        QEvent.taskReturn (JsVal.num 42)] =
      some ⟨[], none, true, 1, 1,
        [QLog.started 0, QLog.finished 0 none true, QLog.resolved 0 JsVal.undef]⟩ ∧
    QLog.resolved 0 JsVal.undef ∈ [QLog.started 0, QLog.finished 0 none true,
        QLog.resolved 0 JsVal.undef] ∧
    QLog.resolved 0 (JsVal.num 42) ∉ [QLog.started 0, QLog.finished 0 none true,
        QLog.resolved 0 JsVal.undef] :=
  ⟨rfl, by decide, by decide⟩

/-- C6 amended: in every reachable queue execution the log validates: tasks
run one at a time with no overlap, starting in enqueue order 0,1,2,...; a
task settles its runTask promise right after finishing, a throwing task
rejecting with the thrown exception; but a normally completing task
resolves the promise with undefined — never with the task's result, since
runTaskResolve() is called without arguments. -/
theorem queue_serialization_amended (evs : List QEvent) (s : QState)
    (hrun : runQEvents qInit evs = some s) :
    qchk s.log none 0 none = some (s.running.map Prod.fst, s.started, none) ∧
    startedIds s.log = List.range s.started ∧
    ∀ i v, QLog.resolved i v ∈ s.log → v = JsVal.undef := by
  obtain ⟨-, -, -, h4⟩ := runQEvents_inv evs qInit s qInv_init hrun
  refine ⟨h4, ?_, ?_⟩
  · obtain ⟨hids, -⟩ := qchk_startedIds s.log none 0 none _ _ _ h4
      (fun i h => by cases h)
    rw [List.range_eq_range' s.started]
    simpa using hids
  · exact fun i v hm => qchk_resolved_undef s.log none 0 none
      (fun j v2 h => by cases h) (by rw [h4]; rfl) i v hm

theorem queue_serialization_amended_witness :
    runQEvents qInit [QEvent.enqueue true, QEvent.enqueue false, QEvent.runStart,
        QEvent.taskReturn (JsVal.num 7), QEvent.runStart,
        QEvent.taskThrow (JsVal.str "boom"), QEvent.runStart] =
      some ⟨[], none, false, 2, 2,
        [QLog.started 0, QLog.finished 0 none true, QLog.resolved 0 JsVal.undef,
         QLog.started 1, QLog.finished 1 (some (JsVal.str "boom")) false]⟩ ∧
    startedIds [QLog.started 0, QLog.finished 0 none true, QLog.resolved 0 JsVal.undef,
        QLog.started 1, QLog.finished 1 (some (JsVal.str "boom")) false] = List.range 2 :=
  ⟨rfl, (queue_serialization_amended
      [QEvent.enqueue true, QEvent.enqueue false, QEvent.runStart,
       QEvent.taskReturn (JsVal.num 7), QEvent.runStart,
       QEvent.taskThrow (JsVal.str "boom"), QEvent.runStart]
      ⟨[], none, false, 2, 2,
        [QLog.started 0, QLog.finished 0 none true, QLog.resolved 0 JsVal.undef,
         QLog.started 1, QLog.finished 1 (some (JsVal.str "boom")) false]⟩ rfl).2.1⟩

/-! ### Theorems on the write fence machine -/

theorem range1_append (a m n : Nat) :
    List.range' a m ++ List.range' (a + m) n = List.range' a (m + n) := by
  induction m generalizing a with
  | zero => simp
  | succ m ih =>
    have h1 : m + 1 + n = (m + n) + 1 := by omega
    rw [h1]
    show a :: (List.range' (a + 1) m ++ List.range' (a + (m + 1)) n)
      = a :: List.range' (a + 1) (m + n)
    have h2 : a + (m + 1) = (a + 1) + m := by omega
    rw [h2, ih]

theorem deltaIds_append (l1 l2 : List FLog) :
    deltaIds (l1 ++ l2) = deltaIds l1 ++ deltaIds l2 := by
  simp [deltaIds]

theorem deltaIds_map (P : List Nat) : deltaIds (P.map FLog.deltaEv) = P := by
  induction P with
  | nil => rfl
  | cons p rest ih =>
    show p :: deltaIds (rest.map FLog.deltaEv) = p :: rest
    rw [ih]

theorem deltaEv_mem_of_mem_deltaIds {l : List FLog} {i : Nat}
    (h : i ∈ deltaIds l) : FLog.deltaEv i ∈ l := by
  obtain ⟨e, he, hfe⟩ := List.mem_filterMap.mp h
  cases e with
  | deltaEv j =>
    injection hfe with h2
    subst h2
    exact he
  | armedEv => cases hfe
  | retiredEv => cases hfe
  | resultEv => cases hfe
  | updatedEv => cases hfe

theorem append_eq_unique {α : Type} {a : α} :
    ∀ (m1 m2 l1 l2 : List α), m1 ++ a :: m2 = l1 ++ a :: l2 →
    a ∉ m1 → a ∉ m2 → m1 = l1 ∧ m2 = l2 := by
  intro m1
  induction m1 with
  | nil =>
    intro m2 l1 l2 h h1 h2
    cases l1 with
    | nil =>
      simp only [List.nil_append] at h
      injection h with hb hrest
      exact ⟨rfl, hrest⟩
    | cons b l1 =>
      simp only [List.nil_append, List.cons_append] at h
      injection h with hb hrest
      subst hb
      exact absurd (hrest ▸ List.mem_append_right l1 (List.mem_cons_self a l2)) h2
  | cons c m1 ih =>
    intro m2 l1 l2 h h1 h2
    cases l1 with
    | nil =>
      simp only [List.cons_append, List.nil_append] at h
      injection h with hb hrest
      subst hb
      exact absurd (List.mem_cons_self c m1) h1
    | cons b l1 =>
      simp only [List.cons_append] at h
      injection h with hb hrest
      subst hb
      obtain ⟨e1, e2⟩ := ih m2 l1 l2 hrest (fun hm => h1 (List.mem_cons_of_mem _ hm)) h2
      exact ⟨by rw [e1], e2⟩

theorem fInv_init : fInv fInit := by
  refine ⟨rfl, rfl, Nat.le_refl 0, rfl, ?_, ?_, rfl, ?_, ?_, ?_⟩
  · intro h; cases h
  · intro h; cases h
  · intro h; rfl
  · intro h hm; cases hm
  · intro h; cases h

theorem fInv_step (s s2 : FState) (e : FEvent) (hinv : fInv s)
    (hstep : fstep s e = some s2) : fInv s2 := by
  obtain ⟨h1, h2, h3, h4, h5, h6, h7, h8, h9, h10⟩ := hinv
  cases e with
  | methodWrite =>
    by_cases hg : s.handlerDone = false ∧ s.retired = false ∧ s.fired = false
    · simp only [fstep] at hstep
      rw [if_pos hg] at hstep
      injection hstep with h
      subst h
      have hfired : s.fired = false := hg.2.2
      have hupd : s.updatedSent = false := by rw [h7, hfired]
      have hL : s.nWrites + 1 - (s.pending.length + 1) = s.nWrites - s.pending.length := by
        omega
      refine ⟨?_, ?_, ?_, ?_, h5, h6, h7, ?_, h9, ?_⟩
      · show s.outstanding + 1 = (s.pending ++ [s.nWrites]).length
        rw [List.length_append, h1]
        rfl
      · show s.pending ++ [s.nWrites] =
          List.range' (s.nWrites + 1 - (s.pending ++ [s.nWrites]).length)
            (s.pending ++ [s.nWrites]).length
        rw [List.length_append]
        show s.pending ++ [s.nWrites] =
          List.range' (s.nWrites + 1 - (s.pending.length + 1)) (s.pending.length + 1)
        rw [hL, range1_concat]
        have hy : s.nWrites - s.pending.length + s.pending.length = s.nWrites := by omega
        rw [hy, ← h2]
      · show (s.pending ++ [s.nWrites]).length ≤ s.nWrites + 1
        rw [List.length_append]
        show s.pending.length + 1 ≤ s.nWrites + 1
        omega
      · show deltaIds s.log =
          List.range (s.nWrites + 1 - (s.pending ++ [s.nWrites]).length)
        rw [List.length_append]
        show deltaIds s.log = List.range (s.nWrites + 1 - (s.pending.length + 1))
        rw [hL]
        exact h4
      · intro hf
        rw [hfired] at hf
        cases hf
      · intro hu
        rw [hupd] at hu
        cases hu
    · simp only [fstep] at hstep
      rw [if_neg hg] at hstep
      exact Option.noConfusion hstep
  | fulfil =>
    by_cases hg : s.handlerDone = false
    · simp only [fstep] at hstep
      rw [if_pos hg] at hstep
      injection hstep with h
      subst h
      have harmed : s.armed = false := by
        cases ha : s.armed
        · rfl
        · have hh := h6 ha
          rw [hg] at hh
          exact Bool.noConfusion hh
      have hfired : s.fired = false := by
        cases hf : s.fired
        · rfl
        · have hh := h5 hf
          rw [harmed] at hh
          exact Bool.noConfusion hh
      have hupd : s.updatedSent = false := by rw [h7, hfired]
      by_cases ho : s.outstanding = 0
      · have hdf : (s.outstanding == 0 && !s.fired) = true := by
          rw [ho, hfired]
          rfl
        have hpnil : s.pending = [] :=
          List.eq_nil_of_length_eq_zero (by omega)
        have hrange : deltaIds s.log = List.range s.nWrites := by
          rw [h4, hpnil]
          show List.range (s.nWrites - 0) = List.range s.nWrites
          rw [Nat.sub_zero]
        simp only [hdf, Bool.or_true, eq_self_iff_true, if_true]
        refine ⟨h1, h2, h3, ?_, ?_, ?_, rfl, ?_, ?_, ?_⟩
        · show deltaIds (s.log ++ [FLog.armedEv] ++ fireChunk ++ [FLog.resultEv])
            = List.range (s.nWrites - s.pending.length)
          rw [deltaIds_append, deltaIds_append, deltaIds_append]
          have e1 : deltaIds [FLog.armedEv] = [] := rfl
          have e2 : deltaIds fireChunk = [] := rfl
          have e3 : deltaIds [FLog.resultEv] = [] := rfl
          rw [e1, e2, e3, List.append_nil, List.append_nil, List.append_nil]
          exact h4
        · intro hf
          rfl
        · intro ha
          rfl
        · intro hf
          exact hpnil
        · intro hu
          exact Bool.noConfusion hu
        · intro hu
          refine ⟨s.log ++ [FLog.armedEv, FLog.retiredEv], [FLog.resultEv], ?_, ?_, ?_, ?_, ?_⟩
          · show s.log ++ [FLog.armedEv] ++ fireChunk ++ [FLog.resultEv]
              = s.log ++ [FLog.armedEv, FLog.retiredEv] ++ FLog.updatedEv :: [FLog.resultEv]
            simp [fireChunk]
          · intro hm
            rcases List.mem_append.mp hm with hma | hmb
            · exact h9 hupd hma
            · simp at hmb
          · intro hm
            simp at hm
          · intro i hi
            have hmem : FLog.deltaEv i ∈ s.log := by
              refine deltaEv_mem_of_mem_deltaIds ?_
              rw [hrange]
              exact List.mem_range.mpr hi
            exact List.mem_append_left _ hmem
          · intro i hm
            simp at hm
      · have hne : (s.outstanding == 0) = false := beq_eq_false_iff_ne.mpr ho
        have hdf : (s.outstanding == 0 && !s.fired) = false := by
          rw [hne]
          rfl
        simp only [hdf, Bool.or_false, Bool.false_eq_true, if_false, List.append_nil]
        refine ⟨h1, h2, h3, ?_, ?_, ?_, h7, h8, ?_, ?_⟩
        · show deltaIds (s.log ++ [FLog.armedEv] ++ [FLog.resultEv])
            = List.range (s.nWrites - s.pending.length)
          rw [deltaIds_append, deltaIds_append]
          have e1 : deltaIds [FLog.armedEv] = [] := rfl
          have e3 : deltaIds [FLog.resultEv] = [] := rfl
          rw [e1, e3, List.append_nil, List.append_nil]
          exact h4
        · intro hf
          rfl
        · intro ha
          rfl
        · intro hu hm
          rcases List.mem_append.mp hm with hma | hmb
          · rcases List.mem_append.mp hma with hma2 | hmb2
            · exact h9 hu hma2
            · simp at hmb2
          · simp at hmb
        · intro hu
          rw [hupd] at hu
          cases hu
    · simp only [fstep] at hstep
      rw [if_neg hg] at hstep
      exact Option.noConfusion hstep
  | pollCycle =>
    cases hp : s.pending with
    | nil =>
      simp only [fstep, hp] at hstep
      exact Option.noConfusion hstep
    | cons p rest =>
      simp only [fstep, hp] at hstep
      injection hstep with h
      subst h
      have hfired : s.fired = false := by
        cases hf : s.fired
        · rfl
        · have hh := h8 hf
          rw [hp] at hh
          exact List.noConfusion hh
      have hupd : s.updatedSent = false := by rw [h7, hfired]
      have hlen : s.outstanding = rest.length + 1 := by
        rw [h1, hp]
        rfl
      have hout2 : s.outstanding - (p :: rest).length = 0 := by
        rw [hlen]
        show rest.length + 1 - (rest.length + 1) = 0
        omega
      have hbeq : (s.outstanding - (p :: rest).length == 0) = true := by
        rw [hout2]
        rfl
      have hdf : (s.armed && (s.outstanding - (p :: rest).length == 0) && !s.fired)
          = s.armed := by
        rw [hbeq, hfired]
        cases s.armed <;> rfl
      have hLs : s.pending.length = rest.length + 1 := by rw [hp]; rfl
      have hrange : deltaIds s.log ++ (p :: rest) = List.range s.nWrites := by
        have hq : p :: rest = List.range' (s.nWrites - (rest.length + 1))
            (rest.length + 1) := by
          rw [← hLs, ← hp]
          exact h2
        have hw : s.nWrites - (rest.length + 1) + (rest.length + 1) = s.nWrites := by
          rw [hLs] at h3
          omega
        have hra := range1_append 0 (s.nWrites - (rest.length + 1)) (rest.length + 1)
        rw [Nat.zero_add] at hra
        rw [h4, hLs, hq, List.range_eq_range', List.range_eq_range', hra, hw]
      simp only [hdf]
      cases ha : s.armed with
      | true =>
        simp only [Bool.or_true, eq_self_iff_true, if_true]
        refine ⟨?_, ?_, ?_, ?_, ?_, ?_, rfl, ?_, ?_, ?_⟩
        · show s.outstanding - (p :: rest).length = ([] : List Nat).length
          rw [hout2]
          rfl
        · show ([] : List Nat) = List.range' (s.nWrites - ([] : List Nat).length)
            ([] : List Nat).length
          rfl
        · show ([] : List Nat).length ≤ s.nWrites
          exact Nat.zero_le _
        · show deltaIds (s.log ++ (p :: rest).map FLog.deltaEv ++ fireChunk)
            = List.range (s.nWrites - ([] : List Nat).length)
          rw [deltaIds_append, deltaIds_append, deltaIds_map]
          have e2 : deltaIds fireChunk = [] := rfl
          rw [e2, List.append_nil, hrange]
          rfl
        · intro hf
          rfl
        · intro ha2
          exact h6 ha
        · intro hf
          rfl
        · intro hu
          exact Bool.noConfusion hu
        · intro hu
          refine ⟨s.log ++ (p :: rest).map FLog.deltaEv ++ [FLog.retiredEv], [], ?_, ?_, ?_, ?_, ?_⟩
          · show s.log ++ (p :: rest).map FLog.deltaEv ++ fireChunk
              = s.log ++ (p :: rest).map FLog.deltaEv ++ [FLog.retiredEv]
                ++ FLog.updatedEv :: []
            simp [fireChunk]
          · intro hm
            rcases List.mem_append.mp hm with hma | hmb
            · rcases List.mem_append.mp hma with hma2 | hmb2
              · exact h9 hupd hma2
              · obtain ⟨x, -, hx⟩ := List.mem_map.mp hmb2
                exact FLog.noConfusion hx
            · simp at hmb
          · intro hm
            cases hm
          · intro i hi
            have hmem : i ∈ deltaIds s.log ++ (p :: rest) := by
              rw [hrange]
              exact List.mem_range.mpr hi
            rcases List.mem_append.mp hmem with hma | hmb
            · exact List.mem_append_left _ (List.mem_append_left _
                (deltaEv_mem_of_mem_deltaIds hma))
            · exact List.mem_append_left _ (List.mem_append_right _
                (List.mem_map_of_mem FLog.deltaEv hmb))
          · intro i hm
            cases hm
      | false =>
        simp only [Bool.or_false, Bool.false_eq_true, if_false, List.append_nil]
        refine ⟨?_, ?_, ?_, ?_, ?_, ?_, h7, ?_, ?_, ?_⟩
        · show s.outstanding - (p :: rest).length = ([] : List Nat).length
          rw [hout2]
          rfl
        · show ([] : List Nat) = List.range' (s.nWrites - ([] : List Nat).length)
            ([] : List Nat).length
          rfl
        · show ([] : List Nat).length ≤ s.nWrites
          exact Nat.zero_le _
        · show deltaIds (s.log ++ (p :: rest).map FLog.deltaEv)
            = List.range (s.nWrites - ([] : List Nat).length)
          rw [deltaIds_append, deltaIds_map, hrange]
          rfl
        · intro hf
          rw [hfired] at hf
          exact Bool.noConfusion hf
        · intro ha2
          exact Bool.noConfusion ha2
        · intro hf
          rfl
        · intro hu hm
          rcases List.mem_append.mp hm with hma | hmb
          · exact h9 hu hma
          · obtain ⟨x, -, hx⟩ := List.mem_map.mp hmb
            exact FLog.noConfusion hx
        · intro hu
          rw [hupd] at hu
          cases hu

theorem runFEvents_inv : ∀ (evs : List FEvent) (s s2 : FState),
    fInv s → runFEvents s evs = some s2 → fInv s2 := by
  intro evs
  induction evs with
  | nil =>
    intro s s2 hi hr
    injection hr with h
    subst h
    exact hi
  | cons e evs ih =>
    intro s s2 hi hr
    cases hq : fstep s e with
    | none => rw [runFEvents, hq] at hr; cases hr
    | some s1 =>
      rw [runFEvents, hq] at hr
      exact ih s1 s2 (fInv_step s s1 e hi hq) hr

/-- C1: in every reachable execution of the write-fence / method /
polling-driver machine, the session sends the method's updated
acknowledgment only after every added/changed/removed delta caused by the
method's store writes has been delivered: wherever updated splits the
message log, every delta of the method's writes lies before it and none
after it.  (The fence only fires once each captured write is committed,
and the driver commits a write only after its deltas were handed to the
sessions.) -/
theorem updated_after_all_deltas (evs : List FEvent) (s : FState)
    (hrun : runFEvents fInit evs = some s)
    (l1 l2 : List FLog) (hsplit : s.log = l1 ++ FLog.updatedEv :: l2) :
    (∀ i, i < s.nWrites → FLog.deltaEv i ∈ l1) ∧ ∀ i, FLog.deltaEv i ∉ l2 := by
  obtain ⟨-, -, -, -, -, -, h7, -, h9, h10⟩ := runFEvents_inv evs fInit s fInv_init hrun
  have hupd : s.updatedSent = true := by
    cases hu : s.updatedSent
    · exact absurd (hsplit ▸ List.mem_append_right l1 (List.mem_cons_self _ _)) (h9 hu)
    · rfl
  obtain ⟨m1, m2, heq, hn1, hn2, hall, hnone⟩ := h10 hupd
  have heq2 : m1 ++ FLog.updatedEv :: m2 = l1 ++ FLog.updatedEv :: l2 := by
    rw [← heq, ← hsplit]
  obtain ⟨e1, e2⟩ := append_eq_unique m1 m2 l1 l2 heq2 hn1 hn2
  exact ⟨fun i hi => e1 ▸ hall i hi, fun i => e2 ▸ hnone i⟩

theorem updated_after_all_deltas_witness :
    (∀ i, i < 1 → FLog.deltaEv i ∈
      [FLog.armedEv, FLog.resultEv, FLog.deltaEv 0, FLog.retiredEv]) ∧
    ∀ i, FLog.deltaEv i ∉ ([] : List FLog) :=
  updated_after_all_deltas [FEvent.methodWrite, FEvent.fulfil, FEvent.pollCycle]
    ⟨true, true, true, 0, true, true, [], 1,
      [FLog.armedEv, FLog.resultEv, FLog.deltaEv 0, FLog.retiredEv, FLog.updatedEv]⟩
    rfl [FLog.armedEv, FLog.resultEv, FLog.deltaEv 0, FLog.retiredEv] [] rfl

/-- C3 counterexample: for a method whose handler performs no writes, the
actual event order is armed, retired, updated, result — finish() arms the
fence (which fires immediately, and its onAllCommitted callback retires the
fence and then sends updated) BEFORE the result message is sent; the order
claimed by the spec (result, then arm; updated, then retire) is different:
the client here receives updated before result. -/
theorem method_order_counterexample :
    runFEvents fInit [FEvent.fulfil] =
      some ⟨true, true, true, 0, true, true, [], 0,
        [FLog.armedEv, FLog.retiredEv, FLog.updatedEv, FLog.resultEv]⟩ ∧
    [FLog.armedEv, FLog.retiredEv, FLog.updatedEv, FLog.resultEv] ≠
      [FLog.resultEv, FLog.armedEv, FLog.updatedEv, FLog.retiredEv] :=
  ⟨rfl, by decide⟩

/-- C3 amended: processing a method message creates a fresh write fence and
installs it with the method invocation; the handler runs; on fulfillment
finish() restores the context and ARMS the fence, and only then the result
message is sent; the onAllCommitted callback RETIRES the fence and then
sends updated {methods: [id]}. In the fence-flush scenario (one store write
observed by a polling driver, committed after the delta is delivered) the
client still observes the messages in the order result, added, updated. -/
theorem method_order_amended (s : FState)
    (hrun : runFEvents fInit [FEvent.methodWrite, FEvent.fulfil, FEvent.pollCycle]
      = some s) :
    s.log = [FLog.armedEv, FLog.resultEv, FLog.deltaEv 0, FLog.retiredEv,
      FLog.updatedEv] ∧
    s.log.filter visibleMsg = [FLog.resultEv, FLog.deltaEv 0, FLog.updatedEv] := by
  have h := Option.some.inj hrun
  rw [← h]
  exact ⟨rfl, rfl⟩

theorem method_order_amended_witness :
    [FLog.armedEv, FLog.resultEv, FLog.deltaEv 0, FLog.retiredEv,
      FLog.updatedEv].filter visibleMsg
      = [FLog.resultEv, FLog.deltaEv 0, FLog.updatedEv] :=
  (method_order_amended
    ⟨true, true, true, 0, true, true, [], 1,
      [FLog.armedEv, FLog.resultEv, FLog.deltaEv 0, FLog.retiredEv,
       FLog.updatedEv]⟩ rfl).2

end Livedata
